import Mathlib

/-!
Verification of the goodpocket deduplication-and-clustering pipeline.

Shallow embedding of the Python sources under `backend/`:
  * `app/services/dedup.py`        — simhash fingerprinting, Hamming distance,
                                      union-find duplicate grouping
  * `app/services/clustering.py`   — density clustering tiers and cluster labeling
  * `app/jobs/batch_processor.py`  — batch orchestrator (embedding phase,
                                      per-user clustering write-back)
  * `scripts/migrate_to_dup_topics.py` — backfill migration (sentinel tag links)

Python machine integers are modelled as `Nat`/`Int` with explicit `% 2^64`
masking where the source masks; fallible steps are modelled with `Except`;
database tables are modelled as explicit in-memory lists threaded through the
functions that the source mutates them in.
-/

namespace GoodPocket

/-! ## dedup.py: 64-bit normalization and Hamming distance -/

/-- `_to_uint64` from `dedup.py`: `int(v) & ((1 << 64) - 1)`.
Python's `&` with the 64-bit mask is exactly `mod 2^64` on arbitrary
(signed) integers. -/
def toUint64 (v : Int) : Nat :=
  (v % (2 ^ 64 : Int)).toNat

/-- The bit-counting loop of `hamming_distance`:
`while x: n += x & 1; x >>= 1`. -/
def popcountLoop (x : Nat) : Nat :=
  if x = 0 then 0
  else (x &&& 1) + popcountLoop (x >>> 1)
decreasing_by
  simp only [Nat.shiftRight_one]
  exact Nat.div_lt_self (Nat.pos_of_ne_zero (by assumption)) one_lt_two

/-- `hamming_distance(a, b)` from `dedup.py`. -/
def hamming_distance (a b : Int) : Nat :=
  popcountLoop (toUint64 a ^^^ toUint64 b)

/-- Spec-side popcount: the number of set bits among bit positions `0..63`. -/
def specPopcount64 (n : Nat) : Nat :=
  (List.range 64).countP (fun i => n.testBit i)

theorem popcountLoop_eq_add (x : Nat) :
    popcountLoop x = x % 2 + popcountLoop (x / 2) := by
  rw [popcountLoop]
  by_cases h : x = 0
  · subst h; simp [popcountLoop]
  · simp [h, Nat.and_one_is_mod, Nat.shiftRight_one]

theorem popcountLoop_eq_countP (k : Nat) :
    ∀ x : Nat, x < 2 ^ k → popcountLoop x = (List.range k).countP (fun i => x.testBit i) := by
  induction k with
  | zero =>
    intro x hx
    have hx0 : x = 0 := by simpa using hx
    subst hx0
    simp [popcountLoop]
  | succ k ih =>
    intro x hx
    have hdiv : x / 2 < 2 ^ k := by
      have h2 : x < 2 ^ k * 2 := by
        calc x < 2 ^ (k + 1) := hx
        _ = 2 ^ k * 2 := by ring
      omega
    rw [popcountLoop_eq_add, ih _ hdiv, List.range_succ_eq_map,
      List.countP_cons, List.countP_map]
    simp only [Function.comp_def, Nat.testBit_succ, Nat.testBit_zero]
    rcases Nat.mod_two_eq_zero_or_one x with h | h <;> · simp [h]; try omega

theorem specPopcount64_eq (x : Nat) (hx : x < 2 ^ 64) :
    popcountLoop x = specPopcount64 x :=
  popcountLoop_eq_countP 64 x hx

theorem toUint64_lt (v : Int) : toUint64 v < 2 ^ 64 := by
  have h := Int.emod_lt_of_pos v (b := (2 : Int) ^ 64) (by positivity)
  have h0 := Int.emod_nonneg v (b := (2 : Int) ^ 64) (by positivity)
  unfold toUint64
  omega

/-! ## batch_processor.py: `run_batch_job` top-level guard -/

/-- The aggregate stats dictionary built by `run_batch_job`. -/
structure BatchStats where
  embeddings_processed : Nat
  embeddings_failed : Nat
  users_clustered : Nat
  errors : List String
deriving DecidableEq, Repr

/-- Return value of `process_pending_embeddings`. -/
structure EmbeddingPhaseStats where
  processed : Nat
  failed : Nat
deriving DecidableEq, Repr

/-- Return value of `run_clustering_for_all_users`. -/
structure ClusteringPhaseStats where
  users_processed : Nat
deriving DecidableEq, Repr

/-- `run_batch_job` from `batch_processor.py`.  The two awaited phases are
modelled by their outcomes (`Except` = normal return or raised exception).
The source mutates a `stats` dict inside a single `try`; the `except` clause
appends `str(e)` to `stats["errors"]` and the function returns `stats`
unconditionally. -/
def run_batch_job (embedding_phase : Except String EmbeddingPhaseStats)
    (clustering_phase : Except String ClusteringPhaseStats) : BatchStats :=
  let stats : BatchStats := ⟨0, 0, 0, []⟩
  let step : BatchStats × Option String :=
    match embedding_phase with
    | .error e => (stats, some e)
    | .ok es =>
      let stats := { stats with
        embeddings_processed := es.processed, embeddings_failed := es.failed }
      match clustering_phase with
      | .error e => (stats, some e)
      | .ok cs => ({ stats with users_clustered := cs.users_processed }, none)
  match step with
  | (s, none) => s
  | (s, some e) => { s with errors := s.errors ++ [e] }

/-- C3: the batch job entry point always returns aggregate stats (it is a
total function of the phase outcomes — no exception propagates), and any
exception raised by a phase is recorded as an error string in the returned
stats, with the stats fields already accumulated before the failure kept. -/
theorem run_batch_job_catches_all (embedding_phase : Except String EmbeddingPhaseStats)
    (clustering_phase : Except String ClusteringPhaseStats) :
    (∀ es cs, embedding_phase = .ok es → clustering_phase = .ok cs →
      run_batch_job embedding_phase clustering_phase =
        ⟨es.processed, es.failed, cs.users_processed, []⟩)
    ∧ (∀ e, embedding_phase = .error e →
      run_batch_job embedding_phase clustering_phase = ⟨0, 0, 0, [e]⟩)
    ∧ (∀ es e, embedding_phase = .ok es → clustering_phase = .error e →
      run_batch_job embedding_phase clustering_phase =
        ⟨es.processed, es.failed, 0, [e]⟩) := by
  refine ⟨?_, ?_, ?_⟩ <;> intros <;> subst_vars <;> rfl

/-- Witness for `run_batch_job_catches_all` at concrete phase outcomes. -/
theorem run_batch_job_catches_all_witness :
    run_batch_job (.ok ⟨7, 2⟩) (.error "boom") = ⟨7, 2, 0, ["boom"]⟩ :=
  (run_batch_job_catches_all (.ok ⟨7, 2⟩) (.error "boom")).2.2 ⟨7, 2⟩ "boom" rfl rfl

/-! ## clustering.py: tiered density clustering -/

/-- `_cluster_with_hdbscan` from `clustering.py`.  The guard
`if n_samples < 5: return [0] * n_samples` is the modelled behaviour; the
UMAP + HDBSCAN path taken for `n_samples ≥ 5` is external numerical code and
is modelled by the outcome `hdbscan_path` (normal return or raised error). -/
def cluster_with_hdbscan (hdbscan_path : Except String (List Int))
    (n_samples : Nat) : Except String (List Int) :=
  if n_samples < 5 then .ok (List.replicate n_samples 0) else hdbscan_path

/-- `_cluster_sync` from `clustering.py`: empty input short-circuits to `[]`;
tier 1 is `_cluster_with_hdbscan`; if it raises, tier 2
(`_cluster_with_cosine_threshold`, floating-point code modelled by the
outcome `cosine_path`) is tried; if that also raises, every item is assigned
cluster 0. -/
def cluster_sync {α : Type} (hdbscan_path cosine_path : Except String (List Int))
    (embeddings_list : List α) : List Int :=
  if embeddings_list.isEmpty then []
  else
    match cluster_with_hdbscan hdbscan_path embeddings_list.length with
    | .ok labels => labels
    | .error _ =>
      match cosine_path with
      | .ok labels => labels
      | .error _ => List.replicate embeddings_list.length 0

/-- C7: for every non-empty input of fewer than 5 embedding vectors the
clusterer assigns every item cluster id 0, whatever the two fallback paths
would have produced; in particular 4 vectors yield `[0, 0, 0, 0]`. -/
theorem cluster_sync_small_input_all_zero {α : Type}
    (hdbscan_path cosine_path : Except String (List Int))
    (embeddings_list : List α)
    (h1 : 1 ≤ embeddings_list.length) (h5 : embeddings_list.length < 5) :
    cluster_sync hdbscan_path cosine_path embeddings_list =
      List.replicate embeddings_list.length 0
    ∧ (embeddings_list.length = 4 →
      cluster_sync hdbscan_path cosine_path embeddings_list = [0, 0, 0, 0]) := by
  have hne : embeddings_list.isEmpty = false := by
    cases embeddings_list with
    | nil => simp at h1
    | cons a l => rfl
  constructor
  · simp [cluster_sync, hne, cluster_with_hdbscan, h5]
  · intro h4
    simp [cluster_sync, hne, cluster_with_hdbscan, h5, h4]

/-- Witness for `cluster_sync_small_input_all_zero`: four vectors, with both
fallback paths set to raise, are all assigned cluster 0. -/
theorem cluster_sync_small_input_all_zero_witness :
    cluster_sync (.error "hdbscan failed") (.error "cosine failed")
      [[1, 0], [0, 1], [1, 1], [0, 0]] = ([0, 0, 0, 0] : List Int) :=
  (cluster_sync_small_input_all_zero (α := List Nat) (.error "hdbscan failed")
    (.error "cosine failed") [[1, 0], [0, 1], [1, 1], [0, 0]]
    (by decide) (by decide)).2 rfl

/-! ## Insertion-ordered association lists (Python `dict` / `Counter`) -/

/-- Python `d[k] = d.get(k, 0) + 1` on an insertion-ordered dict: increment
the existing entry in place, or append a fresh entry with count 1. -/
def bumpCount {κ : Type} [DecidableEq κ] : List (κ × Nat) → κ → List (κ × Nat)
  | [], k => [(k, 1)]
  | p :: rest, k =>
    if p.1 = k then (p.1, p.2 + 1) :: rest else p :: bumpCount rest k

/-- Python `d.get(k)` (→ `None` when absent). -/
def assocGet {κ α : Type} [DecidableEq κ] (m : List (κ × α)) (k : κ) : Option α :=
  (m.find? (fun p => decide (p.1 = k))).map (·.2)

/-- Python `d.get(k, 0)` for counting dicts. -/
def assocVal {κ : Type} [DecidableEq κ] (m : List (κ × Nat)) (k : κ) : Nat :=
  (assocGet m k).getD 0

theorem assocVal_bumpCount_self {κ : Type} [DecidableEq κ]
    (acc : List (κ × Nat)) (k : κ) :
    assocVal (bumpCount acc k) k = assocVal acc k + 1 := by
  induction acc with
  | nil => simp [bumpCount, assocVal, assocGet]
  | cons p rest ih =>
    by_cases h : p.1 = k
    · simp [bumpCount, assocVal, assocGet, h]
    · simp only [bumpCount, if_neg h]
      simpa [assocVal, assocGet, List.find?, h] using ih

theorem assocVal_bumpCount_ne {κ : Type} [DecidableEq κ]
    (acc : List (κ × Nat)) (k q : κ) (hne : q ≠ k) :
    assocVal (bumpCount acc k) q = assocVal acc q := by
  have hkq : ¬k = q := fun h => hne h.symm
  induction acc with
  | nil => simp [bumpCount, assocVal, assocGet, hkq]
  | cons p rest ih =>
    by_cases h : p.1 = k
    · have hpq : ¬p.1 = q := by rw [h]; exact hkq
      simp [bumpCount, assocVal, assocGet, h, List.find?, hpq, hkq]
    · by_cases hq : p.1 = q
      · simp [bumpCount, assocVal, assocGet, h, List.find?, hq, hne]
      · simp only [bumpCount, if_neg h]
        simpa [assocVal, assocGet, List.find?, hq] using ih

theorem bumpCount_keys {κ : Type} [DecidableEq κ] (acc : List (κ × Nat)) (k : κ) :
    ((bumpCount acc k).map Prod.fst = acc.map Prod.fst ∧ k ∈ acc.map Prod.fst)
      ∨ ((bumpCount acc k).map Prod.fst = acc.map Prod.fst ++ [k]
          ∧ k ∉ acc.map Prod.fst) := by
  induction acc with
  | nil => right; simp [bumpCount]
  | cons p rest ih =>
    by_cases h : p.1 = k
    · left
      constructor
      · simp [bumpCount, h]
      · simp [← h]
    · rcases ih with ⟨ihe, ihm⟩ | ⟨ihe, ihm⟩
      · left
        refine ⟨by simp [bumpCount, h, ihe], by simp [ihm]⟩
      · right
        refine ⟨by simp [bumpCount, h, ihe], ?_⟩
        simp only [List.map_cons, List.mem_cons]
        rintro (rfl | hmem)
        · exact h rfl
        · exact ihm hmem

theorem bumpCount_keys_nodup {κ : Type} [DecidableEq κ] (k : κ) :
    ∀ acc : List (κ × Nat), (acc.map Prod.fst).Nodup →
      ((bumpCount acc k).map Prod.fst).Nodup := by
  intro acc h
  rcases bumpCount_keys acc k with ⟨he, _⟩ | ⟨he, hm⟩
  · rwa [he]
  · rw [he]
    refine h.append (by simp) ?_
    intro a ha hb
    simp only [List.mem_singleton] at hb
    exact hm (hb ▸ ha)

theorem assocVal_of_mem {κ : Type} [DecidableEq κ]
    (m : List (κ × Nat)) (h : (m.map Prod.fst).Nodup) :
    ∀ p ∈ m, assocVal m p.1 = p.2 := by
  induction m with
  | nil => intro p hp; simp at hp
  | cons q rest ih =>
    intro p hp
    simp only [List.map_cons, List.nodup_cons] at h
    rcases List.mem_cons.mp hp with rfl | hp
    · simp [assocVal, assocGet, List.find?]
    · have hne : ¬q.1 = p.1 := by
        intro he
        exact h.1 (he ▸ List.mem_map_of_mem Prod.fst hp)
      have hstep : List.find? (fun r => decide (r.1 = p.1)) (q :: rest)
          = List.find? (fun r => decide (r.1 = p.1)) rest :=
        List.find?_cons_of_neg _ (by simpa using hne)
      simp only [assocVal, assocGet, hstep]
      exact ih h.2 p hp

/-! ## clustering.py / batch_processor.py: cluster sizes (C6) -/

/-- The `cluster_sizes` accumulation in `cluster_user`
(`batch_processor.py`): count each assignment with `cluster_id >= 0`,
skipping noise (−1). -/
def cluster_sizes (cluster_assignments : List Int) : List (Int × Nat) :=
  cluster_assignments.foldl
    (fun acc cid => if 0 ≤ cid then bumpCount acc cid else acc) []

theorem cluster_sizes_fold_val (l : List Int) :
    ∀ (acc : List (Int × Nat)) (k : Int),
      assocVal (l.foldl (fun acc cid => if 0 ≤ cid then bumpCount acc cid else acc) acc) k
        = assocVal acc k + l.countP (fun c => decide (0 ≤ c) && decide (c = k)) := by
  induction l with
  | nil => intro acc k; simp
  | cons c rest ih =>
    intro acc k
    by_cases hc : 0 ≤ c
    · by_cases hck : c = k
      · subst hck
        simp [List.foldl_cons, hc, ih, assocVal_bumpCount_self, List.countP_cons]
        omega
      · simp [List.foldl_cons, hc, ih, List.countP_cons, hck,
          assocVal_bumpCount_ne _ _ _ (fun h => hck h.symm)]
    · simp [List.foldl_cons, hc, ih, List.countP_cons]

theorem cluster_sizes_fold_keys (l : List Int) :
    ∀ (acc : List (Int × Nat)),
      (∀ q ∈ acc.map Prod.fst, 0 ≤ q) →
      (acc.map Prod.fst).Nodup →
      (∀ q ∈ (l.foldl (fun acc cid => if 0 ≤ cid then bumpCount acc cid else acc) acc).map Prod.fst, 0 ≤ q)
      ∧ ((l.foldl (fun acc cid => if 0 ≤ cid then bumpCount acc cid else acc) acc).map Prod.fst).Nodup := by
  induction l with
  | nil => intro acc h hd; exact ⟨h, hd⟩
  | cons c rest ih =>
    intro acc h hd
    by_cases hc : 0 ≤ c
    · simp only [List.foldl_cons, if_pos hc]
      refine ih (bumpCount acc c) ?_ (bumpCount_keys_nodup c acc hd)
      intro q hq
      rcases bumpCount_keys acc c with ⟨hk, _⟩ | ⟨hk, _⟩
      · exact h q (hk ▸ hq)
      · rw [hk] at hq
        rcases List.mem_append.mp hq with hq | hq
        · exact h q hq
        · rw [List.mem_singleton.mp hq]
          exact hc
    · simpa [List.foldl_cons, if_neg hc] using ih acc h hd

theorem cluster_sizes_entry (cluster_assignments : List Int) :
    ∀ p ∈ cluster_sizes cluster_assignments,
      0 ≤ p.1 ∧ p.2 = cluster_assignments.countP (fun c => decide (c = p.1)) := by
  intro p hp
  have hkeys := cluster_sizes_fold_keys cluster_assignments [] (by simp) (by simp)
  have h1 : 0 ≤ p.1 := hkeys.1 p.1 (List.mem_map_of_mem Prod.fst hp)
  refine ⟨h1, ?_⟩
  have hval := assocVal_of_mem _ hkeys.2 p hp
  have := cluster_sizes_fold_val cluster_assignments [] p.1
  unfold cluster_sizes at hval
  rw [hval] at this
  simp only [assocVal, assocGet, List.find?, Option.map_none', Option.getD_none,
    Nat.zero_add] at this
  rw [this]
  refine List.countP_congr ?_
  intro c _
  by_cases hc : c = p.1
  · subst hc; simp [h1]
  · simp [hc]

/-- A row of the `clusters` table as inserted by `cluster_user`. -/
structure ClusterRow where
  user_id : Nat
  cluster_id : Int
  label : Option String
  size : Nat
deriving DecidableEq, Repr

/-- The `INSERT INTO clusters` loop of `cluster_user` (`batch_processor.py`):
one row per `cluster_sizes` entry, label from `cluster_labels.get(...)`. -/
def inserted_cluster_rows (user_id : Nat) (cluster_assignments : List Int)
    (cluster_labels : List (Int × String)) : List ClusterRow :=
  (cluster_sizes cluster_assignments).map
    (fun p => ⟨user_id, p.1, assocGet cluster_labels p.1, p.2⟩)

/-- C6: a clustering run never materializes noise: every inserted
`DensityCluster` row has a non-negative id (so no row for −1 exists), and its
size is exactly the number of items assigned that id — noise items are never
counted. -/
theorem inserted_cluster_rows_exclude_noise (user_id : Nat)
    (cluster_assignments : List Int) (cluster_labels : List (Int × String)) :
    ∀ row ∈ inserted_cluster_rows user_id cluster_assignments cluster_labels,
      0 ≤ row.cluster_id ∧ row.cluster_id ≠ -1
      ∧ row.size = cluster_assignments.countP (fun c => decide (c = row.cluster_id)) := by
  intro row hrow
  obtain ⟨p, hp, hrow⟩ := List.mem_map.mp hrow
  obtain ⟨h0, hsz⟩ := cluster_sizes_entry _ p hp
  subst hrow
  exact ⟨h0, by simpa using (by omega : ¬(p.1 = -1)), hsz⟩

/-- Witness for `inserted_cluster_rows_exclude_noise` on the assignment list
`[0, -1, 2, 0]`: the row for cluster 0 has size 2 and noise is not counted. -/
theorem inserted_cluster_rows_exclude_noise_witness :
    0 ≤ (⟨1, 0, some "ai", 2⟩ : ClusterRow).cluster_id
    ∧ (⟨1, 0, some "ai", 2⟩ : ClusterRow).cluster_id ≠ -1
    ∧ (⟨1, 0, some "ai", 2⟩ : ClusterRow).size =
        ([0, -1, 2, 0] : List Int).countP
          (fun c => decide (c = (⟨1, 0, some "ai", 2⟩ : ClusterRow).cluster_id)) :=
  inserted_cluster_rows_exclude_noise 1 [0, -1, 2, 0] [(0, "ai")]
    ⟨1, 0, some "ai", 2⟩ (by decide)

/-- C5: `hamming_distance(a, b)` equals the popcount of
`(a mod 2^64) XOR (b mod 2^64)` for all (possibly signed) integer inputs;
consequently it is zero on equal inputs and symmetric. -/
theorem hamming_distance_is_popcount_of_masked_xor (a b : Int) :
    hamming_distance a b = specPopcount64 (toUint64 a ^^^ toUint64 b)
    ∧ (∀ x : Int, hamming_distance x x = 0)
    ∧ hamming_distance a b = hamming_distance b a := by
  refine ⟨?_, ?_, ?_⟩
  · exact specPopcount64_eq _ (Nat.xor_lt_two_pow (toUint64_lt a) (toUint64_lt b))
  · intro x
    simp [hamming_distance, popcountLoop]
  · simp [hamming_distance, Nat.xor_comm]

/-! ## clustering.py: `generate_cluster_labels` -/

/-- The per-cluster tag accumulation of `generate_cluster_labels`:
`cluster_tags[cid].extend(tags)` on an insertion-ordered dict. -/
def extendAssoc : List (Int × List String) → Int → List String → List (Int × List String)
  | [], cid, tags => [(cid, tags)]
  | p :: rest, cid, tags =>
    if p.1 = cid then (p.1, p.2 ++ tags) :: rest
    else p :: extendAssoc rest cid tags

/-- The grouping loop of `generate_cluster_labels`: zip assignments with tag
lists, skip noise (`cluster_id < 0`), extend the per-cluster tag list. -/
def cluster_tags_assoc (cluster_assignments : List Int)
    (tags_list : List (List String)) : List (Int × List String) :=
  (cluster_assignments.zip tags_list).foldl
    (fun acc p => if p.1 < 0 then acc else extendAssoc acc p.1 p.2) []

/-- `Counter(tags)` as an insertion-ordered association list. -/
def tagCounter (tags : List String) : List (String × Nat) :=
  tags.foldl bumpCount []

/-- The order `heapq.nlargest` uses on position-decorated counter items:
count descending, ties broken by original (insertion) position ascending. -/
def counter_le (a b : Nat × (String × Nat)) : Bool :=
  decide (b.2.2 < a.2.2 ∨ (a.2.2 = b.2.2 ∧ a.1 ≤ b.1))

/-- `Counter.most_common(top_n)`: CPython's `heapq.nlargest` sorts the counter
items by count descending with ties broken by original (first-insertion)
position; realized here by a merge sort over position-decorated entries. -/
def most_common (tags : List String) (top_n : Nat) : List (String × Nat) :=
  let entries := (tagCounter tags).enum
  let ordered := entries.mergeSort counter_le
  (ordered.map Prod.snd).take top_n

/-- `generate_cluster_labels` from `clustering.py`: for each non-noise
cluster, the label is the `", "`-join of the `top_n` most common member tags,
or `"Cluster {id}"` when the members carry no tags. -/
def generate_cluster_labels (cluster_assignments : List Int)
    (tags_list : List (List String)) (top_n : Nat) : List (Int × String) :=
  (cluster_tags_assoc cluster_assignments tags_list).map (fun p =>
    if p.2.isEmpty then (p.1, "Cluster " ++ toString p.1)
    else (p.1, String.intercalate ", " ((most_common p.2 top_n).map Prod.fst)))

theorem extendAssoc_keys (acc : List (Int × List String)) (cid : Int)
    (tags : List String) :
    ((extendAssoc acc cid tags).map Prod.fst = acc.map Prod.fst
        ∧ cid ∈ acc.map Prod.fst)
      ∨ ((extendAssoc acc cid tags).map Prod.fst = acc.map Prod.fst ++ [cid]
        ∧ cid ∉ acc.map Prod.fst) := by
  induction acc with
  | nil => right; simp [extendAssoc]
  | cons p rest ih =>
    by_cases h : p.1 = cid
    · left
      refine ⟨by simp [extendAssoc, h], by simp [← h]⟩
    · rcases ih with ⟨ihe, ihm⟩ | ⟨ihe, ihm⟩
      · left
        refine ⟨by simp [extendAssoc, h, ihe], by simp [ihm]⟩
      · right
        refine ⟨by simp [extendAssoc, h, ihe], ?_⟩
        simp only [List.map_cons, List.mem_cons]
        rintro (rfl | hmem)
        · exact h rfl
        · exact ihm hmem

theorem mem_keys_extendAssoc (acc : List (Int × List String)) (cid q : Int)
    (tags : List String) (h : q ∈ acc.map Prod.fst ∨ q = cid) :
    q ∈ (extendAssoc acc cid tags).map Prod.fst := by
  rcases extendAssoc_keys acc cid tags with ⟨he, hm⟩ | ⟨he, hm⟩ <;> rw [he] <;>
    rcases h with h | rfl
  · exact h
  · exact hm
  · exact List.mem_append.mpr (Or.inl h)
  · exact List.mem_append.mpr (Or.inr (List.mem_singleton.mpr rfl))

theorem cluster_tags_keys_invariant (l : List (Int × List String)) :
    ∀ acc : List (Int × List String),
      (∀ q ∈ (l.foldl (fun acc p => if p.1 < 0 then acc else extendAssoc acc p.1 p.2) acc).map Prod.fst,
        q ∈ acc.map Prod.fst ∨ (0 ≤ q ∧ q ∈ l.map Prod.fst))
      ∧ (∀ p ∈ l, 0 ≤ p.1 →
        p.1 ∈ (l.foldl (fun acc p => if p.1 < 0 then acc else extendAssoc acc p.1 p.2) acc).map Prod.fst)
      ∧ (∀ q, q ∈ acc.map Prod.fst →
        q ∈ (l.foldl (fun acc p => if p.1 < 0 then acc else extendAssoc acc p.1 p.2) acc).map Prod.fst) := by
  induction l with
  | nil => intro acc; refine ⟨fun q hq => Or.inl hq, fun p hp _ => absurd hp (by simp), fun q hq => hq⟩
  | cons r rest ih =>
    intro acc
    by_cases hr : r.1 < 0
    · simp only [List.foldl_cons, if_pos hr]
      obtain ⟨ih1, ih2, ih3⟩ := ih acc
      refine ⟨fun q hq => ?_, fun p hp h0 => ?_, ih3⟩
      · rcases ih1 q hq with h | ⟨h0, hmem⟩
        · exact Or.inl h
        · exact Or.inr ⟨h0, by simp [hmem]⟩
      · rcases List.mem_cons.mp hp with rfl | hp
        · omega
        · exact ih2 p hp h0
    · simp only [List.foldl_cons, if_neg hr]
      obtain ⟨ih1, ih2, ih3⟩ := ih (extendAssoc acc r.1 r.2)
      refine ⟨fun q hq => ?_, fun p hp h0 => ?_, fun q hq => ?_⟩
      · rcases ih1 q hq with h | ⟨h0, hmem⟩
        · rcases extendAssoc_keys acc r.1 r.2 with ⟨he, _⟩ | ⟨he, _⟩
          · exact Or.inl (he ▸ h)
          · rw [he] at h
            rcases List.mem_append.mp h with h | h
            · exact Or.inl h
            · rw [List.mem_singleton.mp h]
              exact Or.inr ⟨by omega, by simp⟩
        · exact Or.inr ⟨h0, by simp [hmem]⟩
      · rcases List.mem_cons.mp hp with rfl | hp
        · exact ih3 p.1 (mem_keys_extendAssoc acc p.1 p.1 p.2 (Or.inr rfl))
        · exact ih2 p hp h0
      · exact ih3 q (mem_keys_extendAssoc acc r.1 q r.2 (Or.inl hq))

theorem cluster_tags_assoc_keys (cluster_assignments : List Int)
    (tags_list : List (List String)) :
    (∀ q ∈ (cluster_tags_assoc cluster_assignments tags_list).map Prod.fst, 0 ≤ q)
    ∧ (∀ p ∈ cluster_assignments.zip tags_list, 0 ≤ p.1 →
      p.1 ∈ (cluster_tags_assoc cluster_assignments tags_list).map Prod.fst) := by
  obtain ⟨h1, h2, _⟩ := cluster_tags_keys_invariant (cluster_assignments.zip tags_list) []
  refine ⟨fun q hq => ?_, h2⟩
  rcases h1 q hq with h | ⟨h0, _⟩
  · simp at h
  · exact h0

theorem generate_cluster_labels_keys (cluster_assignments : List Int)
    (tags_list : List (List String)) (top_n : Nat) :
    (generate_cluster_labels cluster_assignments tags_list top_n).map Prod.fst
      = (cluster_tags_assoc cluster_assignments tags_list).map Prod.fst := by
  unfold generate_cluster_labels
  rw [List.map_map]
  refine List.map_congr_left ?_
  intro p _
  by_cases h : p.2 = [] <;> simp [h]

theorem assocGet_eq_none_of_not_mem {κ α : Type} [DecidableEq κ]
    (m : List (κ × α)) (k : κ) (h : k ∉ m.map Prod.fst) :
    assocGet m k = none := by
  unfold assocGet
  rw [List.find?_eq_none.mpr]
  · rfl
  · intro p hp
    simp only [decide_eq_true_eq]
    intro he
    exact h (he ▸ List.mem_map_of_mem Prod.fst hp)

theorem assocGet_isSome_of_mem {κ α : Type} [DecidableEq κ]
    (m : List (κ × α)) (k : κ) (h : k ∈ m.map Prod.fst) :
    (assocGet m k).isSome := by
  obtain ⟨p, hp, he⟩ := List.mem_map.mp h
  have hs : (List.find? (fun r => decide (r.1 = k)) m).isSome :=
    List.find?_isSome.mpr ⟨p, hp, by simp [he]⟩
  rcases ho : List.find? (fun r => decide (r.1 = k)) m with _ | q
  · rw [ho] at hs
    simp at hs
  · simp [assocGet, ho]

/-! ## batch_processor.py: per-item cluster write-back (C10) -/

/-- The fields written by the per-bookmark
`UPDATE bookmarks SET cluster_id = ..., cluster_label = ...` in `cluster_user`. -/
structure BookmarkClusterUpdate where
  bookmark_id : Nat
  cluster_id : Option Int
  cluster_label : Option String
deriving DecidableEq, Repr

/-- The write-back loop of `cluster_user`: for every `(bookmark_id, cluster_id)`
pair, store `cluster_id if cluster_id >= 0 else None` and
`cluster_labels.get(cluster_id)` (the labels generated with the default
`top_n = 5`). -/
def bookmark_cluster_updates (bookmark_ids : List Nat)
    (cluster_assignments : List Int) (tags_list : List (List String)) :
    List BookmarkClusterUpdate :=
  let cluster_labels := generate_cluster_labels cluster_assignments tags_list 5
  (bookmark_ids.zip cluster_assignments).map (fun p =>
    ⟨p.1, if 0 ≤ p.2 then some p.2 else none, assocGet cluster_labels p.2⟩)

/-- C10: in the per-owner write-back, every item assigned noise has both its
stored cluster id and cluster label set to NULL, and every item with a
non-negative assignment stores that id together with the (present) label of
its cluster — a noise assignment is never visible as a numeric cluster id. -/
theorem bookmark_cluster_updates_noise_is_null (bookmark_ids : List Nat)
    (cluster_assignments : List Int) (tags_list : List (List String))
    (hlen : cluster_assignments.length = tags_list.length) :
    ∀ u ∈ bookmark_cluster_updates bookmark_ids cluster_assignments tags_list,
      ∃ cid, (u.bookmark_id, cid) ∈ bookmark_ids.zip cluster_assignments
        ∧ (cid < 0 → u.cluster_id = none ∧ u.cluster_label = none)
        ∧ (0 ≤ cid → u.cluster_id = some cid
            ∧ u.cluster_label =
                assocGet (generate_cluster_labels cluster_assignments tags_list 5) cid
            ∧ u.cluster_label.isSome) := by
  intro u hu
  obtain ⟨p, hp, hu⟩ := List.mem_map.mp hu
  refine ⟨p.2, ?_, ?_, ?_⟩
  · rw [← hu]
    exact hp
  · intro hneg
    subst hu
    have hnot : ¬(0 ≤ p.2) := by omega
    refine ⟨by simp [hnot], ?_⟩
    simp only
    refine assocGet_eq_none_of_not_mem _ _ ?_
    rw [generate_cluster_labels_keys]
    intro hmem
    have := (cluster_tags_assoc_keys cluster_assignments tags_list).1 p.2 hmem
    omega
  · intro hpos
    subst hu
    refine ⟨by simp [hpos], rfl, ?_⟩
    simp only
    refine assocGet_isSome_of_mem _ _ ?_
    rw [generate_cluster_labels_keys]
    have hmem2 : p.2 ∈ cluster_assignments := (List.of_mem_zip hp).2
    have : p.2 ∈ (cluster_assignments.zip tags_list).map Prod.fst := by
      rw [List.map_fst_zip _ _ (le_of_eq hlen)]
      exact hmem2
    obtain ⟨q, hq, he⟩ := List.mem_map.mp this
    exact he ▸ (cluster_tags_assoc_keys cluster_assignments tags_list).2 q hq (he ▸ hpos)

/-- Witness for `bookmark_cluster_updates_noise_is_null`: two bookmarks, one
noise (stored as NULL/NULL) and one in cluster 0. -/
theorem bookmark_cluster_updates_noise_is_null_witness :
    ∃ cid, ((⟨11, none, none⟩ : BookmarkClusterUpdate).bookmark_id, cid)
        ∈ ([11, 12].zip ([-1, 0] : List Int))
      ∧ (cid < 0 → (⟨11, none, none⟩ : BookmarkClusterUpdate).cluster_id = none
          ∧ (⟨11, none, none⟩ : BookmarkClusterUpdate).cluster_label = none)
      ∧ (0 ≤ cid → (⟨11, none, none⟩ : BookmarkClusterUpdate).cluster_id = some cid
          ∧ (⟨11, none, none⟩ : BookmarkClusterUpdate).cluster_label =
              assocGet (generate_cluster_labels [-1, 0] [["x"], ["ai"]] 5) cid
          ∧ (⟨11, none, none⟩ : BookmarkClusterUpdate).cluster_label.isSome) :=
  bookmark_cluster_updates_noise_is_null [11, 12] [-1, 0] [["x"], ["ai"]]
    (by decide) ⟨11, none, none⟩ (by decide)

/-! ## batch_processor.py: `process_pending_embeddings` fetch loop (C2) -/

/-- Bookmark lifecycle status values used by the embedding phase. -/
inductive BookmarkStatus
  | pending_embedding
  | embedded
  | failed
deriving DecidableEq, Repr

/-- The slice of a `bookmarks` row the fetch loop depends on. -/
structure PendingBookmark where
  id : Nat
  status : BookmarkStatus
deriving DecidableEq, Repr

/-- `EMBEDDING_BATCH_SIZE = 50` from `batch_processor.py`. -/
def EMBEDDING_BATCH_SIZE : Nat := 50

/-- `SELECT ... WHERE status = 'pending_embedding' ORDER BY created_at ASC
LIMIT 50`: the table list is kept in creation order, so the fetch is a
filter-then-take. -/
def fetch_pending (bookmarks : List PendingBookmark) : List PendingBookmark :=
  (bookmarks.filter (fun b => b.status == .pending_embedding)).take
    EMBEDDING_BATCH_SIZE

/-- The per-row `UPDATE` after `generate_embeddings_batch`: an embedding
present for the row (per `embed_ok`) sets `status = 'embedded'`, an absent
one sets `status = 'failed'`; either way the row leaves the pending state
(the claim's scenario — store writes themselves do not fail here). -/
def apply_embedding_updates (embed_ok : Nat → Bool)
    (fetched_ids : List Nat) (bookmarks : List PendingBookmark) :
    List PendingBookmark :=
  bookmarks.map (fun b =>
    if fetched_ids.contains b.id then
      { b with status := if embed_ok b.id then .embedded else .failed }
    else b)

/-- The `while True` fetch loop of `process_pending_embeddings`; the first
component records the number of rows each `db.fetch` returned (the loop
breaks right after a fetch returns no rows).  `fuel` only bounds the
recursion; the wrapper below supplies more than the loop can consume. -/
def fetch_loop (embed_ok : Nat → Bool) :
    Nat → List PendingBookmark → List Nat × List PendingBookmark
  | 0, bookmarks => ([], bookmarks)
  | fuel + 1, bookmarks =>
    let rows := fetch_pending bookmarks
    if rows.isEmpty then ([0], bookmarks)
    else
      let updated :=
        apply_embedding_updates embed_ok (rows.map (·.id)) bookmarks
      let rest := fetch_loop embed_ok fuel updated
      (rows.length :: rest.1, rest.2)

/-- `process_pending_embeddings`, reduced to its fetch trace and final table
state. -/
def process_pending_embeddings (embed_ok : Nat → Bool)
    (bookmarks : List PendingBookmark) : List Nat × List PendingBookmark :=
  fetch_loop embed_ok (bookmarks.length + 1) bookmarks

theorem filter_apply_embedding_updates (embed_ok : Nat → Bool)
    (fetched_ids : List Nat) (bookmarks : List PendingBookmark) :
    (apply_embedding_updates embed_ok fetched_ids bookmarks).filter
        (fun b => b.status == .pending_embedding)
      = bookmarks.filter (fun b =>
          b.status == .pending_embedding && !fetched_ids.contains b.id) := by
  induction bookmarks with
  | nil => rfl
  | cons b rest ih =>
    simp only [apply_embedding_updates, List.map_cons] at *
    cases hc : fetched_ids.contains b.id with
    | true =>
      have hnp : ((if embed_ok b.id then BookmarkStatus.embedded
          else BookmarkStatus.failed) == BookmarkStatus.pending_embedding) = false := by
        cases embed_ok b.id <;> rfl
      simp only [List.filter_cons, hc, if_true, hnp, Bool.not_true,
        Bool.and_false, Bool.false_eq_true, if_false]
      exact ih
    | false =>
      simp only [List.filter_cons, hc, Bool.false_eq_true, if_false,
        Bool.not_false, Bool.and_true]
      cases hs : (b.status == BookmarkStatus.pending_embedding) with
      | false =>
        simp only [hs, Bool.false_eq_true, if_false]
        exact ih
      | true =>
        simp only [hs, if_true]
        rw [ih]

theorem filter_not_contains_of_append (P Q : List PendingBookmark)
    (h : ((P ++ Q).map (fun b => b.id)).Nodup) :
    (P ++ Q).filter (fun b => !(P.map (fun b => b.id)).contains b.id) = Q := by
  rw [List.filter_append]
  rw [List.map_append, List.nodup_append] at h
  have h1 : P.filter (fun b => !(P.map (fun b => b.id)).contains b.id) = [] := by
    rw [List.filter_eq_nil_iff]
    intro b hb
    simp [List.contains, List.elem_iff, List.mem_map_of_mem (fun b => b.id) hb]
  have h2 : Q.filter (fun b => !(P.map (fun b => b.id)).contains b.id) = Q := by
    rw [List.filter_eq_self]
    intro b hb
    have hnot : b.id ∉ P.map (fun b => b.id) := by
      intro hmem
      exact h.2.2 hmem (List.mem_map_of_mem (fun b => b.id) hb)
    simp [List.contains, List.elem_iff, hnot]
  rw [h1, h2, List.nil_append]

theorem apply_embedding_updates_ids (embed_ok : Nat → Bool)
    (fetched_ids : List Nat) (bookmarks : List PendingBookmark) :
    (apply_embedding_updates embed_ok fetched_ids bookmarks).map (fun b => b.id)
      = bookmarks.map (fun b => b.id) := by
  unfold apply_embedding_updates
  rw [List.map_map]
  refine List.map_congr_left ?_
  intro b _
  simp only [Function.comp_apply]
  cases hc : fetched_ids.contains b.id
  · simp only [hc, Bool.false_eq_true, if_false]
  · simp only [hc, if_true]

theorem pending_after_batch (embed_ok : Nat → Bool)
    (bookmarks : List PendingBookmark)
    (hnodup : (bookmarks.map (fun b => b.id)).Nodup) :
    (apply_embedding_updates embed_ok ((fetch_pending bookmarks).map (fun b => b.id))
        bookmarks).filter (fun b => b.status == .pending_embedding)
      = (bookmarks.filter (fun b => b.status == .pending_embedding)).drop
          EMBEDDING_BATCH_SIZE := by
  set F := bookmarks.filter (fun b => b.status == .pending_embedding) with hF
  have hsub : (F.map (fun b => b.id)).Nodup :=
    ((List.filter_sublist bookmarks).map (fun b => b.id)).nodup hnodup
  rw [filter_apply_embedding_updates]
  have hcomm : bookmarks.filter (fun b =>
        b.status == .pending_embedding
          && !((fetch_pending bookmarks).map (fun b => b.id)).contains b.id)
      = F.filter (fun b =>
          !((fetch_pending bookmarks).map (fun b => b.id)).contains b.id) := by
    rw [hF, List.filter_filter]
    refine List.filter_congr ?_
    intro b _
    exact Bool.and_comm _ _
  rw [hcomm]
  have hsplit : F = F.take EMBEDDING_BATCH_SIZE ++ F.drop EMBEDDING_BATCH_SIZE :=
    (List.take_append_drop _ F).symm
  have : fetch_pending bookmarks = F.take EMBEDDING_BATCH_SIZE := rfl
  rw [this]
  calc F.filter (fun b =>
        !((F.take EMBEDDING_BATCH_SIZE).map (fun b => b.id)).contains b.id)
      = (F.take EMBEDDING_BATCH_SIZE ++ F.drop EMBEDDING_BATCH_SIZE).filter
          (fun b =>
            !((F.take EMBEDDING_BATCH_SIZE).map (fun b => b.id)).contains b.id) := by
        rw [← hsplit]
    _ = F.drop EMBEDDING_BATCH_SIZE := by
        refine filter_not_contains_of_append _ _ ?_
        rw [← hsplit]
        exact hsub

/-- The fetch sizes the loop produces as a function of how many rows start
out pending: batches of 50, then a final empty fetch. -/
def spec_fetch_sizes (n : Nat) : List Nat :=
  if n = 0 then [0] else min 50 n :: spec_fetch_sizes (n - 50)
decreasing_by omega

theorem fetch_loop_trace (embed_ok : Nat → Bool) :
    ∀ (fuel : Nat) (bookmarks : List PendingBookmark),
      (bookmarks.filter (fun b => b.status == .pending_embedding)).length < fuel →
      (bookmarks.map (fun b => b.id)).Nodup →
      (fetch_loop embed_ok fuel bookmarks).1
        = spec_fetch_sizes
            (bookmarks.filter (fun b => b.status == .pending_embedding)).length := by
  intro fuel
  induction fuel with
  | zero => intro bookmarks h _; omega
  | succ fuel ih =>
    intro bookmarks hcount hnodup
    set F := bookmarks.filter (fun b => b.status == .pending_embedding) with hF
    by_cases hFnil : F = []
    · have hrows : (fetch_pending bookmarks).isEmpty = true := by
        unfold fetch_pending
        rw [← hF, hFnil]
        rfl
      rw [fetch_loop]
      simp only [hrows, if_true]
      rw [hFnil, spec_fetch_sizes]
      rfl
    · have hFlen : 1 ≤ F.length := by
        cases hFe : F with
        | nil => exact absurd hFe hFnil
        | cons a l => simp [hFe]
      have hrows : (fetch_pending bookmarks).isEmpty = false := by
        unfold fetch_pending
        rw [← hF]
        cases hFe : F with
        | nil => exact absurd hFe hFnil
        | cons a l => rfl
      rw [fetch_loop]
      simp only [hrows, Bool.false_eq_true, if_false]
      have hlen : (fetch_pending bookmarks).length = min EMBEDDING_BATCH_SIZE F.length := by
        unfold fetch_pending
        rw [← hF, List.length_take]
      have hupd := pending_after_batch embed_ok bookmarks hnodup
      rw [← hF] at hupd
      have hnodup2 : ((apply_embedding_updates embed_ok
          ((fetch_pending bookmarks).map (fun b => b.id)) bookmarks).map
            (fun b => b.id)).Nodup := by
        rw [apply_embedding_updates_ids]
        exact hnodup
      have hcount2 : ((apply_embedding_updates embed_ok
          ((fetch_pending bookmarks).map (fun b => b.id)) bookmarks).filter
            (fun b => b.status == .pending_embedding)).length < fuel := by
        rw [hupd, List.length_drop]
        have : EMBEDDING_BATCH_SIZE = 50 := rfl
        omega
      have hrec := ih _ hcount2 hnodup2
      simp only at hrec
      rw [hrec, hupd, List.length_drop]
      conv_rhs => rw [spec_fetch_sizes]
      have hne : ¬(F.length = 0) := by omega
      simp only [hne, if_false, hlen]
      have h50 : EMBEDDING_BATCH_SIZE = 50 := rfl
      rw [h50]

/-- 120 bookmarks in state `pending_embedding` (creation order), the claim's
scenario. -/
def initial_pending_120 : List PendingBookmark :=
  (List.range 120).map (fun i => ⟨i, .pending_embedding⟩)

theorem fetch_trace_of_count_120 (embed_ok : Nat → Bool)
    (bookmarks : List PendingBookmark)
    (hnodup : (bookmarks.map (fun b => b.id)).Nodup)
    (hcount : (bookmarks.filter
      (fun b => b.status == .pending_embedding)).length = 120) :
    (process_pending_embeddings embed_ok bookmarks).1 = [50, 50, 20, 0] := by
  have hfuel : (bookmarks.filter
      (fun b => b.status == .pending_embedding)).length < bookmarks.length + 1 := by
    have := List.length_filter_le
      (fun b => b.status == BookmarkStatus.pending_embedding) bookmarks
    omega
  have h := fetch_loop_trace embed_ok (bookmarks.length + 1) bookmarks hfuel hnodup
  rw [process_pending_embeddings, h, hcount]
  have e1 : spec_fetch_sizes 120 = 50 :: spec_fetch_sizes 70 := by
    rw [spec_fetch_sizes]; norm_num
  have e2 : spec_fetch_sizes 70 = 50 :: spec_fetch_sizes 20 := by
    rw [spec_fetch_sizes]; norm_num
  have e3 : spec_fetch_sizes 20 = 20 :: spec_fetch_sizes 0 := by
    rw [spec_fetch_sizes]; norm_num
  have e4 : spec_fetch_sizes 0 = [0] := by
    rw [spec_fetch_sizes]
    norm_num
  rw [e1, e2, e3, e4]

theorem initial_pending_120_ids_nodup :
    (initial_pending_120.map (fun b => b.id)).Nodup := by
  have h : initial_pending_120.map (fun b => b.id) = List.range 120 := by
    unfold initial_pending_120
    rw [List.map_map]
    exact List.map_id _
  rw [h]
  exact List.nodup_range 120

theorem initial_pending_120_count :
    (initial_pending_120.filter
      (fun b => b.status == BookmarkStatus.pending_embedding)).length = 120 := by
  unfold initial_pending_120
  rw [List.filter_map]
  have h : (List.range 120).filter
      ((fun (b : PendingBookmark) => b.status == BookmarkStatus.pending_embedding)
        ∘ (fun i => ⟨i, .pending_embedding⟩)) = List.range 120 := by
    rw [List.filter_eq_self]
    intro a _
    rfl
  rw [h, List.length_map, List.length_range]

/-- C2 counterexample: starting from exactly 120 pending items with batch
size 50 (every processed item leaving the pending state), the loop does not
perform exactly 3 fetches — it performs 4 `db.fetch` calls, the last of
which returns 0 rows and breaks the loop. -/
theorem fetch_loop_not_three_fetches :
    (process_pending_embeddings (fun _ => true) initial_pending_120).1 ≠ [50, 50, 20]
    ∧ ((process_pending_embeddings (fun _ => true) initial_pending_120).1).length
        = 4 := by
  have h := fetch_trace_of_count_120 (fun _ => true) initial_pending_120
    initial_pending_120_ids_nodup initial_pending_120_count
  rw [h]
  exact ⟨by decide, rfl⟩

/-- C2 (amended): an embedding-phase run starting with exactly 120 pending
items and batch size 50, in which each processed item leaves the pending
state, performs exactly 4 fetches returning 50, 50, 20 and 0 rows
respectively — three non-empty batches plus the final empty fetch that
terminates the loop. -/
theorem fetch_loop_three_batches_then_empty_fetch (embed_ok : Nat → Bool)
    (bookmarks : List PendingBookmark)
    (hnodup : (bookmarks.map (fun b => b.id)).Nodup)
    (hcount : (bookmarks.filter
      (fun b => b.status == .pending_embedding)).length = 120) :
    (process_pending_embeddings embed_ok bookmarks).1 = [50, 50, 20, 0]
    ∧ ((process_pending_embeddings embed_ok bookmarks).1).length = 4 := by
  have h := fetch_trace_of_count_120 embed_ok bookmarks hnodup hcount
  exact ⟨h, by rw [h]; rfl⟩

/-- Witness for `fetch_loop_three_batches_then_empty_fetch` on the concrete
120-bookmark table with all embeddings succeeding. -/
theorem fetch_loop_three_batches_then_empty_fetch_witness :
    (process_pending_embeddings (fun _ => false) initial_pending_120).1
      = [50, 50, 20, 0] :=
  (fetch_loop_three_batches_then_empty_fetch (fun _ => false) initial_pending_120
    initial_pending_120_ids_nodup initial_pending_120_count).1

/-! ## clustering.py: `generate_cluster_labels` vs the spec (C8) -/

/-- Frequency of a tag in a member-tag concatenation. -/
def tag_freq (tags : List String) (t : String) : Nat :=
  tags.countP (fun s => decide (s = t))

/-- The distinct tags of a list in first-seen order. -/
def distinct_first_seen (tags : List String) : List String :=
  tags.foldl (fun ks t => if t ∈ ks then ks else ks ++ [t]) []

/-- The spec's order on tags: descending frequency, ties broken by lower
first-occurrence index. -/
def tag_le (tags : List String) (a b : String) : Bool :=
  decide (tag_freq tags b < tag_freq tags a
    ∨ (tag_freq tags a = tag_freq tags b
        ∧ List.indexOf a tags ≤ List.indexOf b tags))

/-- Spec-side tag ordering: descending frequency, ties broken by first-seen
order (first occurrence index) among the cluster's tags. -/
def spec_tag_order (tags : List String) : List String :=
  (distinct_first_seen tags).mergeSort (tag_le tags)

theorem foldl_bumpCount_val (l : List String) :
    ∀ (acc : List (String × Nat)) (t : String),
      assocVal (l.foldl bumpCount acc) t
        = assocVal acc t + l.countP (fun s => decide (s = t)) := by
  induction l with
  | nil => intro acc t; simp
  | cons s rest ih =>
    intro acc t
    by_cases hst : s = t
    · subst hst
      simp [List.foldl_cons, ih, assocVal_bumpCount_self, List.countP_cons]
      omega
    · simp [List.foldl_cons, ih, List.countP_cons, hst,
        assocVal_bumpCount_ne _ _ _ (fun h => hst h.symm)]

theorem foldl_bumpCount_keys (l : List String) :
    ∀ acc : List (String × Nat),
      (l.foldl bumpCount acc).map Prod.fst
        = l.foldl (fun ks t => if t ∈ ks then ks else ks ++ [t])
            (acc.map Prod.fst) := by
  induction l with
  | nil => intro acc; rfl
  | cons s rest ih =>
    intro acc
    simp only [List.foldl_cons]
    rcases bumpCount_keys acc s with ⟨he, hm⟩ | ⟨he, hm⟩
    · rw [ih, he, if_pos hm]
    · rw [ih, he, if_neg hm]

theorem tagCounter_keys (tags : List String) :
    (tagCounter tags).map Prod.fst = distinct_first_seen tags := by
  unfold tagCounter distinct_first_seen
  rw [foldl_bumpCount_keys]
  rfl

theorem distinct_seen_invariant (l : List String) :
    ∀ ks : List String, ks.Nodup →
      (l.foldl (fun ks t => if t ∈ ks then ks else ks ++ [t]) ks).Nodup
      ∧ (∀ t, t ∈ (l.foldl (fun ks t => if t ∈ ks then ks else ks ++ [t]) ks)
          ↔ (t ∈ ks ∨ t ∈ l)) := by
  induction l with
  | nil => intro ks h; refine ⟨h, fun t => by simp⟩
  | cons s rest ih =>
    intro ks h
    by_cases hm : s ∈ ks
    · simp only [List.foldl_cons, if_pos hm]
      obtain ⟨ih1, ih2⟩ := ih ks h
      refine ⟨ih1, fun t => ?_⟩
      rw [ih2 t]
      constructor
      · rintro (ht | ht)
        · exact Or.inl ht
        · exact Or.inr (List.mem_cons_of_mem _ ht)
      · rintro (ht | ht)
        · exact Or.inl ht
        · rcases List.mem_cons.mp ht with rfl | ht
          · exact Or.inl hm
          · exact Or.inr ht
    · simp only [List.foldl_cons, if_neg hm]
      have hnd : (ks ++ [s]).Nodup := by
        refine h.append (by simp) ?_
        intro a ha hb
        rw [List.mem_singleton.mp hb] at ha
        exact hm ha
      obtain ⟨ih1, ih2⟩ := ih (ks ++ [s]) hnd
      refine ⟨ih1, fun t => ?_⟩
      rw [ih2 t]
      simp only [List.mem_append, List.mem_singleton, List.mem_cons]
      tauto

theorem distinct_first_seen_nodup (tags : List String) :
    (distinct_first_seen tags).Nodup :=
  (distinct_seen_invariant tags [] (by simp)).1

theorem mem_distinct_first_seen (tags : List String) (t : String) :
    t ∈ distinct_first_seen tags ↔ t ∈ tags := by
  unfold distinct_first_seen
  rw [(distinct_seen_invariant tags [] (by simp)).2 t]
  simp

theorem indexOf_append_self_of_not_mem (l : List String) (t : String)
    (h : t ∉ l) : List.indexOf t (l ++ [t]) = l.length := by
  induction l with
  | nil => simp
  | cons s rest ih =>
    have hne : s ≠ t := by
      intro he
      exact h (he ▸ List.mem_cons_self s rest)
    have hrest : t ∉ rest := fun hr => h (List.mem_cons_of_mem _ hr)
    simp only [List.cons_append, List.indexOf_cons_ne _ hne, ih hrest,
      List.length_cons]

theorem distinct_first_seen_pairwise (tags : List String) :
    (distinct_first_seen tags).Pairwise
      (fun a b => List.indexOf a tags < List.indexOf b tags) := by
  induction tags using List.reverseRecOn with
  | nil => simp [distinct_first_seen]
  | append_singleton l t ih =>
    unfold distinct_first_seen at *
    rw [List.foldl_append, List.foldl_cons, List.foldl_nil]
    by_cases hm : t ∈ l.foldl (fun ks t => if t ∈ ks then ks else ks ++ [t]) []
    · rw [if_pos hm]
      refine ih.imp_of_mem ?_
      intro a b ha hb hab
      have ha' : a ∈ l := (mem_distinct_first_seen l a).mp ha
      have hb' : b ∈ l := (mem_distinct_first_seen l b).mp hb
      rw [List.indexOf_append_of_mem ha', List.indexOf_append_of_mem hb']
      exact hab
    · rw [if_neg hm]
      have htl : t ∉ l := fun h => hm ((mem_distinct_first_seen l t).mpr h)
      refine List.pairwise_append.mpr ⟨?_, by simp, ?_⟩
      · refine ih.imp_of_mem ?_
        intro a b ha hb hab
        have ha' : a ∈ l := (mem_distinct_first_seen l a).mp ha
        have hb' : b ∈ l := (mem_distinct_first_seen l b).mp hb
        rw [List.indexOf_append_of_mem ha', List.indexOf_append_of_mem hb']
        exact hab
      · intro a ha b hb
        rw [List.mem_singleton.mp hb]
        have ha' : a ∈ l := (mem_distinct_first_seen l a).mp ha
        rw [List.indexOf_append_of_mem ha', indexOf_append_self_of_not_mem l t htl]
        exact List.indexOf_lt_length.mpr ha'

theorem tagCounter_entry (tags : List String) :
    ∀ p ∈ tagCounter tags, p.2 = tag_freq tags p.1 := by
  intro p hp
  have hkeys : ((tagCounter tags).map Prod.fst).Nodup := by
    rw [tagCounter_keys]
    exact distinct_first_seen_nodup tags
  have hval := assocVal_of_mem _ hkeys p hp
  have hfold := foldl_bumpCount_val tags [] p.1
  unfold tagCounter at hval
  rw [hval] at hfold
  simpa [assocVal, assocGet, tag_freq] using hfold

/-- Two lists sorted by the same boolean comparison and permutations of each
other agree, provided the comparison is antisymmetric on their elements. -/
theorem eq_of_perm_of_pairwise_le {α : Type} (le : α → α → Bool) :
    ∀ (l₁ l₂ : List α), l₁.Perm l₂ →
      l₁.Pairwise (fun a b => le a b = true) →
      l₂.Pairwise (fun a b => le a b = true) →
      (∀ a ∈ l₁, ∀ b ∈ l₁, le a b = true → le b a = true → a = b) →
      l₁ = l₂ := by
  intro l₁
  induction l₁ with
  | nil =>
    intro l₂ hp _ _ _
    exact hp.nil_eq
  | cons a t₁ ih =>
    intro l₂ hp h₁ h₂ hanti
    cases l₂ with
    | nil => exact absurd hp.symm.nil_eq (by simp)
    | cons b t₂ =>
      have hab : a = b := by
        by_contra hne
        have ha2 : a ∈ b :: t₂ := hp.mem_iff.mp (List.mem_cons_self a t₁)
        have hat2 : a ∈ t₂ := by
          rcases List.mem_cons.mp ha2 with he | h
          · exact absurd he hne
          · exact h
        have hb1 : b ∈ a :: t₁ := hp.mem_iff.mpr (List.mem_cons_self b t₂)
        have hbt1 : b ∈ t₁ := by
          rcases List.mem_cons.mp hb1 with he | h
          · exact absurd he.symm hne
          · exact h
        have hle1 : le a b = true := (List.pairwise_cons.mp h₁).1 b hbt1
        have hle2 : le b a = true := (List.pairwise_cons.mp h₂).1 a hat2
        exact hne (hanti a (List.mem_cons_self a t₁) b
          (List.mem_cons_of_mem a hbt1) hle1 hle2)
      subst hab
      have ht : t₁.Perm t₂ := hp.cons_inv
      have he := ih t₂ ht (List.pairwise_cons.mp h₁).2 (List.pairwise_cons.mp h₂).2
        (fun x hx y hy => hanti x (List.mem_cons_of_mem a hx) y
          (List.mem_cons_of_mem a hy))
      rw [he]

theorem counter_le_trans (a b c : Nat × (String × Nat))
    (h1 : counter_le a b = true) (h2 : counter_le b c = true) :
    counter_le a c = true := by
  simp only [counter_le, decide_eq_true_eq] at *
  omega

theorem counter_le_total (a b : Nat × (String × Nat)) :
    (counter_le a b || counter_le b a) = true := by
  simp only [counter_le, Bool.or_eq_true, decide_eq_true_eq]
  omega

theorem tag_le_trans (tags : List String) (a b c : String)
    (h1 : tag_le tags a b = true) (h2 : tag_le tags b c = true) :
    tag_le tags a c = true := by
  simp only [tag_le, decide_eq_true_eq] at *
  omega

theorem tag_le_total (tags : List String) (a b : String) :
    (tag_le tags a b || tag_le tags b a) = true := by
  simp only [tag_le, Bool.or_eq_true, decide_eq_true_eq]
  omega

theorem enum_entry_freq (tags : List String) :
    ∀ e ∈ (tagCounter tags).enum, e.2.2 = tag_freq tags e.2.1 := by
  rintro ⟨i, x⟩ he
  obtain ⟨hi, hx⟩ := List.mem_enum he
  have hmem : x ∈ tagCounter tags := hx ▸ List.getElem_mem hi
  exact tagCounter_entry tags x hmem

theorem enum_entry_index_mono (tags : List String) :
    ∀ e1 ∈ (tagCounter tags).enum, ∀ e2 ∈ (tagCounter tags).enum,
      e1.1 ≤ e2.1 →
      List.indexOf e1.2.1 tags ≤ List.indexOf e2.2.1 tags := by
  rintro ⟨i, x⟩ h1 ⟨j, y⟩ h2 hij
  obtain ⟨hi, hx⟩ := List.mem_enum h1
  obtain ⟨hj, hy⟩ := List.mem_enum h2
  rcases Nat.lt_or_ge i j with hlt | hge
  · have hpair : ((tagCounter tags).map Prod.fst).Pairwise
        (fun a b => List.indexOf a tags < List.indexOf b tags) := by
      rw [tagCounter_keys]
      exact distinct_first_seen_pairwise tags
    have hlen : ((tagCounter tags).map Prod.fst).length
        = (tagCounter tags).length := List.length_map _ _
    have := List.pairwise_iff_get.mp hpair
      ⟨i, by omega⟩ ⟨j, by omega⟩ (by simpa using hlt)
    simp only [List.get_eq_getElem, List.getElem_map] at this
    rw [← hx, ← hy] at this
    exact le_of_lt this
  · have hij2 : i = j := by omega
    subst hij2
    have hxy : x = y := by rw [hx, hy]
    rw [hxy]

theorem most_common_map_fst (tags : List String) (top_n : Nat) :
    (most_common tags top_n).map Prod.fst = (spec_tag_order tags).take top_n := by
  have hmain :
      (((tagCounter tags).enum.mergeSort counter_le).map (fun e => e.2.1))
        = spec_tag_order tags := by
    have hperm1 : (((tagCounter tags).enum.mergeSort counter_le).map
          (fun e => e.2.1)).Perm
        ((tagCounter tags).enum.map (fun e => e.2.1)) :=
      (List.mergeSort_perm (tagCounter tags).enum counter_le).map _
    have hEf : (tagCounter tags).enum.map (fun e => e.2.1)
        = distinct_first_seen tags := by
      have h1 : (tagCounter tags).enum.map (fun e => e.2.1)
          = ((tagCounter tags).enum.map Prod.snd).map Prod.fst := by
        rw [List.map_map]
        rfl
      rw [h1, List.enum_map_snd, tagCounter_keys]
    have hperm : (((tagCounter tags).enum.mergeSort counter_le).map
          (fun e => e.2.1)).Perm (spec_tag_order tags) := by
      refine (hEf ▸ hperm1).trans ?_
      exact (List.mergeSort_perm (distinct_first_seen tags) (tag_le tags)).symm
    have hsorted_src : ((tagCounter tags).enum.mergeSort counter_le).Pairwise
        (fun a b => counter_le a b = true) :=
      List.sorted_mergeSort counter_le_trans counter_le_total _
    have hsorted_spec : (spec_tag_order tags).Pairwise
        (fun a b => tag_le tags a b = true) :=
      List.sorted_mergeSort (tag_le_trans tags) (tag_le_total tags) _
    have hmem_src : ∀ e ∈ (tagCounter tags).enum.mergeSort counter_le,
        e ∈ (tagCounter tags).enum := fun e he =>
      (List.mergeSort_perm (tagCounter tags).enum counter_le).mem_iff.mp he
    have hpair_S : (((tagCounter tags).enum.mergeSort counter_le).map
          (fun e => e.2.1)).Pairwise (fun a b => tag_le tags a b = true) := by
      rw [List.pairwise_map]
      refine hsorted_src.imp_of_mem ?_
      intro e1 e2 h1 h2 hle
      have he1 := hmem_src e1 h1
      have he2 := hmem_src e2 h2
      have hf1 := enum_entry_freq tags e1 he1
      have hf2 := enum_entry_freq tags e2 he2
      simp only [counter_le, decide_eq_true_eq] at hle
      simp only [tag_le, decide_eq_true_eq]
      rcases hle with hlt | ⟨heq, hij⟩
      · left
        rw [← hf1, ← hf2]
        exact hlt
      · right
        refine ⟨by rw [← hf1, ← hf2]; exact heq, ?_⟩
        exact enum_entry_index_mono tags e1 he1 e2 he2 hij
    have hanti : ∀ a ∈ ((tagCounter tags).enum.mergeSort counter_le).map
          (fun e => e.2.1), ∀ b ∈ ((tagCounter tags).enum.mergeSort counter_le).map
          (fun e => e.2.1),
        tag_le tags a b = true → tag_le tags b a = true → a = b := by
      intro a ha b hb hab hba
      have hmemD : ∀ x ∈ ((tagCounter tags).enum.mergeSort counter_le).map
          (fun e => e.2.1), x ∈ tags := by
        intro x hx
        have : x ∈ distinct_first_seen tags := (hEf ▸ hperm1).mem_iff.mp hx
        exact (mem_distinct_first_seen tags x).mp this
      have hat : a ∈ tags := hmemD a ha
      have hbt : b ∈ tags := hmemD b hb
      simp only [tag_le, decide_eq_true_eq] at hab hba
      have hidx : List.indexOf a tags = List.indexOf b tags := by omega
      exact (List.indexOf_inj hat hbt).mp hidx
    exact eq_of_perm_of_pairwise_le (tag_le tags) _ _ hperm hpair_S hsorted_spec hanti
  show (((((tagCounter tags).enum.mergeSort counter_le).map Prod.snd).take
      top_n).map Prod.fst) = (spec_tag_order tags).take top_n
  rw [List.map_take, List.map_map, ← hmain]
  rfl

theorem assocGet_of_mem {κ α : Type} [DecidableEq κ] :
    ∀ m : List (κ × α), (m.map Prod.fst).Nodup →
      ∀ p ∈ m, assocGet m p.1 = some p.2 := by
  intro m
  induction m with
  | nil => intro _ p hp; simp at hp
  | cons q rest ih =>
    intro h p hp
    simp only [List.map_cons, List.nodup_cons] at h
    rcases List.mem_cons.mp hp with rfl | hp
    · simp [assocGet, List.find?]
    · have hne : ¬q.1 = p.1 := by
        intro he
        exact h.1 (he ▸ List.mem_map_of_mem Prod.fst hp)
      have hstep : List.find? (fun r => decide (r.1 = p.1)) (q :: rest)
          = List.find? (fun r => decide (r.1 = p.1)) rest :=
        List.find?_cons_of_neg _ (by simpa using hne)
      simp only [assocGet, hstep]
      exact ih h.2 p hp

theorem extendAssoc_keys_nodup (cid : Int) (tags : List String) :
    ∀ acc : List (Int × List String), (acc.map Prod.fst).Nodup →
      ((extendAssoc acc cid tags).map Prod.fst).Nodup := by
  intro acc h
  rcases extendAssoc_keys acc cid tags with ⟨he, _⟩ | ⟨he, hm⟩
  · rwa [he]
  · rw [he]
    refine h.append (by simp) ?_
    intro a ha hb
    rw [List.mem_singleton.mp hb] at ha
    exact hm ha

theorem cluster_tags_fold_keys_nodup (l : List (Int × List String)) :
    ∀ acc : List (Int × List String), (acc.map Prod.fst).Nodup →
      ((l.foldl (fun acc p => if p.1 < 0 then acc else extendAssoc acc p.1 p.2)
          acc).map Prod.fst).Nodup := by
  induction l with
  | nil => intro acc h; exact h
  | cons r rest ih =>
    intro acc h
    by_cases hr : r.1 < 0
    · simpa [List.foldl_cons, if_pos hr] using ih acc h
    · simp only [List.foldl_cons, if_neg hr]
      exact ih _ (extendAssoc_keys_nodup r.1 r.2 acc h)

theorem cluster_tags_assoc_keys_nodup (cluster_assignments : List Int)
    (tags_list : List (List String)) :
    ((cluster_tags_assoc cluster_assignments tags_list).map Prod.fst).Nodup :=
  cluster_tags_fold_keys_nodup _ [] (by simp)

/-- `d.get(k, [])` for list-valued dicts. -/
def assocGetL (m : List (Int × List String)) (k : Int) : List String :=
  (assocGet m k).getD []

theorem assocGetL_extendAssoc_self (acc : List (Int × List String)) (cid : Int)
    (tags : List String) :
    assocGetL (extendAssoc acc cid tags) cid = assocGetL acc cid ++ tags := by
  induction acc with
  | nil => simp [extendAssoc, assocGetL, assocGet]
  | cons p rest ih =>
    by_cases h : p.1 = cid
    · simp [extendAssoc, assocGetL, assocGet, h, List.find?]
    · simp only [extendAssoc, if_neg h]
      have hstep : ∀ m, List.find? (fun r => decide (r.1 = cid)) (p :: m)
          = List.find? (fun r => decide (r.1 = cid)) m := fun m =>
        List.find?_cons_of_neg _ (by simpa using h)
      simp only [assocGetL, assocGet, hstep]
      exact ih

theorem assocGetL_extendAssoc_ne (acc : List (Int × List String)) (cid q : Int)
    (tags : List String) (hne : q ≠ cid) :
    assocGetL (extendAssoc acc cid tags) q = assocGetL acc q := by
  have hkq : ¬cid = q := fun h => hne h.symm
  induction acc with
  | nil => simp [extendAssoc, assocGetL, assocGet, hkq]
  | cons p rest ih =>
    by_cases h : p.1 = cid
    · have hpq : ¬p.1 = q := by rw [h]; exact hkq
      simp [extendAssoc, assocGetL, assocGet, h, List.find?, hpq, hkq]
    · by_cases hq : p.1 = q
      · simp [extendAssoc, assocGetL, assocGet, h, List.find?, hq, hne]
      · simp only [extendAssoc, if_neg h]
        have hstep : ∀ m, List.find? (fun r => decide (r.1 = q)) (p :: m)
            = List.find? (fun r => decide (r.1 = q)) m := fun m =>
          List.find?_cons_of_neg _ (by simpa using hq)
        simp only [assocGetL, assocGet, hstep]
        simpa [assocGetL, assocGet] using ih

theorem cluster_tags_fold_val (l : List (Int × List String)) :
    ∀ (acc : List (Int × List String)) (cid : Int), 0 ≤ cid →
      assocGetL (l.foldl (fun acc p => if p.1 < 0 then acc else extendAssoc acc p.1 p.2) acc) cid
        = assocGetL acc cid
            ++ (l.filter (fun p => decide (p.1 = cid))).flatMap (fun p => p.2) := by
  induction l with
  | nil => intro acc cid _; simp
  | cons r rest ih =>
    intro acc cid hcid
    by_cases hr : r.1 < 0
    · have hne : ¬(r.1 = cid) := by omega
      have hfilt : List.filter (fun p => decide (p.1 = cid)) (r :: rest)
          = List.filter (fun p => decide (p.1 = cid)) rest := by
        simp [List.filter_cons, hne]
      simp only [List.foldl_cons, if_pos hr, hfilt]
      exact ih acc cid hcid
    · simp only [List.foldl_cons, if_neg hr]
      by_cases he : r.1 = cid
      · subst he
        have hfilt : List.filter (fun p => decide (p.1 = r.1)) (r :: rest)
            = r :: List.filter (fun p => decide (p.1 = r.1)) rest := by
          simp [List.filter_cons]
        rw [hfilt, List.flatMap_cons, ih _ _ hcid, assocGetL_extendAssoc_self,
          List.append_assoc]
      · have hfilt : List.filter (fun p => decide (p.1 = cid)) (r :: rest)
            = List.filter (fun p => decide (p.1 = cid)) rest := by
          simp [List.filter_cons, he]
        rw [hfilt, ih _ _ hcid,
          assocGetL_extendAssoc_ne _ _ _ _ (fun h => he h.symm)]

/-- C8: the labeler maps each non-noise cluster id present in the input (and
only those) to the `", "`-join of the top `top_n` member tags by descending
frequency over the concatenation of the cluster's member tag lists, ties
broken by first-seen order; a cluster with zero member tags gets
`"Cluster {id}"`; and the spec's example: tags `["ai","ai","ml"]` with
`top_n ≥ 2` yield the label `"ai, ml"`. -/
theorem generate_cluster_labels_spec (cluster_assignments : List Int)
    (tags_list : List (List String)) (top_n : Nat) :
    (∀ q : Int, q < 0 →
      assocGet (generate_cluster_labels cluster_assignments tags_list top_n) q
        = none)
    ∧ (∀ p ∈ cluster_assignments.zip tags_list, 0 ≤ p.1 →
      (assocGet (generate_cluster_labels cluster_assignments tags_list top_n)
        p.1).isSome)
    ∧ (∀ pr ∈ cluster_tags_assoc cluster_assignments tags_list,
      pr.2 = ((cluster_assignments.zip tags_list).filter
          (fun p => decide (p.1 = pr.1))).flatMap (fun p => p.2)
      ∧ assocGet (generate_cluster_labels cluster_assignments tags_list top_n)
          pr.1
        = some (if pr.2 = [] then "Cluster " ++ toString pr.1
            else String.intercalate ", " ((spec_tag_order pr.2).take top_n)))
    ∧ (∀ n, 2 ≤ n →
      generate_cluster_labels [0, 0, 0] [["ai"], ["ai"], ["ml"]] n
        = [(0, "ai, ml")]) := by
  refine ⟨?_, ?_, ?_, ?_⟩
  · intro q hq
    refine assocGet_eq_none_of_not_mem _ _ ?_
    rw [generate_cluster_labels_keys]
    intro hmem
    have := (cluster_tags_assoc_keys cluster_assignments tags_list).1 q hmem
    omega
  · intro p hp h0
    refine assocGet_isSome_of_mem _ _ ?_
    rw [generate_cluster_labels_keys]
    exact (cluster_tags_assoc_keys cluster_assignments tags_list).2 p hp h0
  · intro pr hpr
    have hnodup := cluster_tags_assoc_keys_nodup cluster_assignments tags_list
    have h0 : 0 ≤ pr.1 :=
      (cluster_tags_assoc_keys cluster_assignments tags_list).1 pr.1
        (List.mem_map_of_mem Prod.fst hpr)
    constructor
    · have hget : assocGet (cluster_tags_assoc cluster_assignments tags_list)
          pr.1 = some pr.2 :=
        assocGet_of_mem _ hnodup pr hpr
      have hval := cluster_tags_fold_val (cluster_assignments.zip tags_list)
        [] pr.1 h0
      have hchar : assocGetL (cluster_tags_assoc cluster_assignments tags_list)
          pr.1 = ((cluster_assignments.zip tags_list).filter
            (fun p => decide (p.1 = pr.1))).flatMap (fun p => p.2) := by
        unfold cluster_tags_assoc
        simpa [assocGetL, assocGet] using hval
      rw [← hchar, assocGetL, hget]
      rfl
    · have hnodupL : ((generate_cluster_labels cluster_assignments tags_list
          top_n).map Prod.fst).Nodup := by
        rw [generate_cluster_labels_keys]
        exact hnodup
      have hmeml : (if pr.2.isEmpty then (pr.1, "Cluster " ++ toString pr.1)
          else (pr.1, String.intercalate ", "
            ((most_common pr.2 top_n).map Prod.fst)))
          ∈ generate_cluster_labels cluster_assignments tags_list top_n :=
        List.mem_map_of_mem _ hpr
      by_cases hemp : pr.2 = []
      · have hf : (if pr.2.isEmpty then (pr.1, "Cluster " ++ toString pr.1)
            else (pr.1, String.intercalate ", "
              ((most_common pr.2 top_n).map Prod.fst)))
            = (pr.1, "Cluster " ++ toString pr.1) := by
          simp [hemp]
        rw [hf] at hmeml
        have := assocGet_of_mem _ hnodupL _ hmeml
        simpa [hemp] using this
      · have hie : pr.2.isEmpty = false := by
          cases hpe : pr.2 with
          | nil => exact absurd hpe hemp
          | cons a l => rfl
        have hf : (if pr.2.isEmpty then (pr.1, "Cluster " ++ toString pr.1)
            else (pr.1, String.intercalate ", "
              ((most_common pr.2 top_n).map Prod.fst)))
            = (pr.1, String.intercalate ", "
              ((most_common pr.2 top_n).map Prod.fst)) := by
          rw [hie]
          rfl
        rw [hf] at hmeml
        have := assocGet_of_mem _ hnodupL _ hmeml
        simp only at this
        rw [this, most_common_map_fst]
        simp [hemp]
  · intro n hn
    have hassoc : cluster_tags_assoc [0, 0, 0] [["ai"], ["ai"], ["ml"]]
        = [(0, ["ai", "ai", "ml"])] := by rfl
    have hsto : spec_tag_order ["ai", "ai", "ml"] = ["ai", "ml"] := by
      have hd : distinct_first_seen ["ai", "ai", "ml"] = ["ai", "ml"] := by rfl
      unfold spec_tag_order
      rw [hd]
      simp [List.mergeSort, tag_le, tag_freq]
    unfold generate_cluster_labels
    rw [hassoc]
    simp only [List.map_cons, List.map_nil]
    rw [show ((["ai", "ai", "ml"] : List String).isEmpty) = false from rfl]
    simp only [Bool.false_eq_true, if_false]
    rw [most_common_map_fst, hsto,
      List.take_of_length_le (by simpa using hn)]
    rfl

/-- Witness for `generate_cluster_labels_spec`: the spec's example at
`top_n = 2`. -/
theorem generate_cluster_labels_spec_witness :
    generate_cluster_labels [0, 0, 0] [["ai"], ["ai"], ["ml"]] 2
      = [(0, "ai, ml")] :=
  (generate_cluster_labels_spec [0, 0, 0] [["ai"], ["ai"], ["ml"]] 5).2.2.2 2
    (by norm_num)

/-! ## dedup.py: `compute_simhash` vs the spec (C4) -/

theorem lor_two_pow_of_lt {a n : Nat} (h : a < 2 ^ n) :
    a ||| 2 ^ n = a + 2 ^ n := by
  refine Nat.eq_of_testBit_eq fun i => ?_
  rw [Nat.testBit_lor]
  rcases Nat.lt_trichotomy i n with hi | he | hi
  case inr.inl =>
    subst he
    rw [Nat.testBit_two_pow_self, Bool.or_true, Nat.testBit_to_div_mod]
    have hdiv : (a + 2 ^ i) / 2 ^ i = 1 := by
      rw [Nat.add_div_right _ (Nat.pos_pow_of_pos i (by norm_num)),
        Nat.div_eq_of_lt h]
    rw [hdiv]
    rfl
  · have hne : n ≠ i := by omega
    rw [Nat.testBit_two_pow_of_ne hne, Bool.or_false,
      Nat.testBit_to_div_mod, Nat.testBit_to_div_mod]
    have hsplit : (2 : Nat) ^ n = 2 ^ (n - i) * 2 ^ i := by
      rw [← pow_add]
      congr 1
      omega
    have hdecomp : (a + 2 ^ n) / 2 ^ i = a / 2 ^ i + 2 ^ (n - i) := by
      rw [hsplit, Nat.add_mul_div_right _ _ (Nat.pos_pow_of_pos i (by norm_num))]
    rw [hdecomp]
    have heven : (2 : Nat) ^ (n - i) % 2 = 0 := by
      have hpos : n - i ≠ 0 := by omega
      obtain ⟨m, hm⟩ := Nat.exists_eq_succ_of_ne_zero hpos
      rw [hm, pow_succ, Nat.mul_mod_left]
    have hmod : (a / 2 ^ i + 2 ^ (n - i)) % 2 = a / 2 ^ i % 2 := by omega
    rw [hmod]
  · have hlt1 : a < 2 ^ i := by
      calc a < 2 ^ n := h
      _ ≤ 2 ^ i := Nat.pow_le_pow_right (by norm_num) (by omega)
    have hlt2 : a + 2 ^ n < 2 ^ i := by
      have h1 : 2 ^ (n + 1) ≤ 2 ^ i := Nat.pow_le_pow_right (by norm_num) (by omega)
      have h2 : (2 : Nat) ^ (n + 1) = 2 ^ n + 2 ^ n := by ring
      omega
    rw [Nat.testBit_eq_false_of_lt hlt2, Nat.testBit_eq_false_of_lt hlt1,
      Nat.testBit_two_pow_of_ne (by omega)]
    rfl

section Simhash

variable (isSpace : Char → Bool)

/-- Python `str.strip()`: drop leading and trailing whitespace. -/
def stripWs (l : List Char) : List Char :=
  ((l.dropWhile isSpace).reverse.dropWhile isSpace).reverse

/-- Python `re.sub(r"\s+", " ", s)`: replace each maximal whitespace run by
one space. -/
def collapseWs : List Char → List Char
  | [] => []
  | c :: rest =>
    if isSpace c then ' ' :: collapseWs (rest.dropWhile isSpace)
    else c :: collapseWs rest
termination_by l => l.length
decreasing_by
  · have := (List.dropWhile_sublist isSpace (l := rest)).length_le
    simp only [List.length_cons]
    omega
  · simp only [List.length_cons]
    omega

/-- `_normalize_text` from `dedup.py`: empty text stays empty; otherwise
lowercase (per character), strip, collapse whitespace runs.  The
per-character lowercase map and the whitespace class are parameters — both
the source and the spec use the same Python `str.lower` / `\s`. -/
def _normalize_text (lower : Char → Char) (text : List Char) : List Char :=
  if text = [] then []
  else collapseWs isSpace (stripWs isSpace (text.map lower))

/-- Python `str.split()` with no argument: words between whitespace runs. -/
def splitWs : List Char → List (List Char)
  | [] => []
  | c :: rest =>
    if isSpace c then splitWs rest
    else (c :: rest.takeWhile (fun d => !isSpace d))
        :: splitWs (rest.dropWhile (fun d => !isSpace d))
termination_by l => l.length
decreasing_by
  · simp only [List.length_cons]
    omega
  · have := (List.dropWhile_sublist (fun d => !isSpace d) (l := rest)).length_le
    simp only [List.length_cons]
    omega

/-- `" ".join(words)`. -/
def joinSpace : List (List Char) → List Char
  | [] => []
  | [w] => w
  | w :: x :: ws => w ++ ' ' :: joinSpace (x :: ws)

/-- `_word_shingles` from `dedup.py` (word k-grams; for fewer than `k` words
the single shingle `" ".join(words)`, or no shingle at all for no words). -/
def _word_shingles (text : List Char) (k : Nat) : List (List Char) :=
  let words := splitWs isSpace text
  if words.length < k then
    if words = [] then [] else [joinSpace words]
  else
    (List.range (words.length - k + 1)).map
      (fun i => joinSpace ((words.drop i).take k))

variable (h64 : List Char → Nat)

/-- The per-bit vote vector loop of `compute_simhash`: each shingle adds +1
at bit positions where its hash has a 1 bit, −1 elsewhere. -/
def simhash_votes (shingles : List (List Char)) : Nat → Int :=
  shingles.foldl
    (fun v sh => fun i =>
      v i + (if (h64 sh >>> i) &&& 1 = 1 then 1 else -1))
    (fun _ => 0)

/-- The bit-assembly loop of `compute_simhash` (`result |= 1 << i` for
positive votes) followed by the final 64-bit mask. -/
def simhash_result (shingles : List (List Char)) : Nat :=
  ((List.range 64).foldl
    (fun r i => if 0 < simhash_votes h64 shingles i then r ||| (1 <<< i) else r)
    0) &&& (2 ^ 64 - 1)

/-- `compute_simhash` from `dedup.py`, parametric in the 64-bit shingle hash
`h64` (a SHA-256 prefix in the source — an opaque "strong 64-bit hash" to
both the source and the spec). -/
def compute_simhash (lower : Char → Char) (text : List Char) : Nat :=
  let normalized := _normalize_text isSpace lower text
  if normalized = [] then 0
  else
    let shingles := _word_shingles isSpace normalized 3
    if shingles = [] then h64 normalized
    else simhash_result h64 shingles

/-- The spec's accumulated vote at bit position `i`. -/
def spec_vote (shingles : List (List Char)) (i : Nat) : Int :=
  (shingles.map (fun sh => if (h64 sh).testBit i then (1 : Int) else -1)).sum

/-- The spec's fingerprint: bit `i` set iff the vote at `i` is positive. -/
def spec_fingerprint (shingles : List (List Char)) : Nat :=
  ∑ i ∈ Finset.range 64, if 0 < spec_vote h64 shingles i then 2 ^ i else 0

/-- The fingerprint algorithm as the spec states it (§4.1): normalize;
word shingles of size 3, the whole normalized string being the single
shingle when there are fewer than 3 words; per-bit votes +1/−1 over all
shingles; output bit i = 1 iff the vote is > 0; empty normalized text
yields 0. -/
def spec_simhash (lower : Char → Char) (text : List Char) : Nat :=
  let normalized := _normalize_text isSpace lower text
  if normalized = [] then 0
  else
    let words := splitWs isSpace normalized
    let shingles := if words.length < 3 then [normalized]
      else (List.range (words.length - 3 + 1)).map
        (fun i => joinSpace ((words.drop i).take 3))
    spec_fingerprint h64 shingles

end Simhash


section SimhashLemmas

variable (isSpace : Char → Bool)

/-- Head character (if any) is not whitespace. -/
def hns (l : List Char) : Prop :=
  ∀ c, l.head? = some c → isSpace c = false

theorem hns_dropWhile (l : List Char) : hns isSpace (l.dropWhile isSpace) := by
  intro c hc
  have := List.head?_dropWhile_not isSpace l
  rw [hc] at this
  exact this

theorem hns_of_prefix {l₁ l₂ : List Char} (hpre : l₁ <+: l₂)
    (h : hns isSpace l₂) : hns isSpace l₁ := by
  intro c hc
  obtain ⟨t, ht⟩ := hpre
  refine h c ?_
  rw [← ht, List.head?_append, hc]
  rfl

theorem hns_reverse_of_suffix {l₁ l₂ : List Char} (hsuf : l₁ <:+ l₂)
    (h : hns isSpace l₂.reverse) : hns isSpace l₁.reverse := by
  intro c hc
  obtain ⟨t, ht⟩ := hsuf
  refine h c ?_
  rw [← ht, List.reverse_append, List.head?_append, hc]
  rfl

theorem hns_stripWs (l : List Char) : hns isSpace (stripWs isSpace l) := by
  unfold stripWs
  have hsuf : (l.dropWhile isSpace).reverse.dropWhile isSpace
      <:+ (l.dropWhile isSpace).reverse := List.dropWhile_suffix _
  obtain ⟨t, ht⟩ := hsuf
  have hpre : ((l.dropWhile isSpace).reverse.dropWhile isSpace).reverse
      <+: l.dropWhile isSpace := by
    refine ⟨t.reverse, ?_⟩
    have h2 := congrArg List.reverse ht
    rw [List.reverse_append, List.reverse_reverse] at h2
    exact h2
  exact hns_of_prefix isSpace hpre (hns_dropWhile isSpace l)

theorem lns_stripWs (l : List Char) :
    hns isSpace (stripWs isSpace l).reverse := by
  unfold stripWs
  rw [List.reverse_reverse]
  exact hns_dropWhile isSpace _

theorem collapseWs_decomp (l : List Char) :
    collapseWs isSpace l
      = l.takeWhile (fun d => !isSpace d)
        ++ collapseWs isSpace (l.dropWhile (fun d => !isSpace d)) := by
  induction l with
  | nil => rfl
  | cons c rest ih =>
    cases hc : isSpace c with
    | true =>
      have hnc : (!isSpace c) = false := by rw [hc]; rfl
      rw [List.takeWhile_cons, hnc]
      rw [List.dropWhile_cons]
      simp only [hnc, Bool.false_eq_true, if_false, List.nil_append]
    | false =>
      have hnc : (!isSpace c) = true := by rw [hc]; rfl
      rw [collapseWs]
      simp only [hc, Bool.false_eq_true, if_false]
      rw [List.takeWhile_cons, hnc, List.dropWhile_cons]
      simp only [hnc, if_true, List.cons_append]
      rw [ih]

theorem hns_collapseWs (l : List Char) (h : hns isSpace l) :
    hns isSpace (collapseWs isSpace l) := by
  cases l with
  | nil => intro c hc; simp [collapseWs] at hc
  | cons a rest =>
    have ha : isSpace a = false := h a rfl
    intro c hc
    rw [collapseWs] at hc
    simp only [ha, Bool.false_eq_true, if_false] at hc
    simp only [List.head?] at hc
    have hca : a = c := (Option.some.injEq a c).mp hc
    rw [← hca]
    exact ha

theorem splitWs_nil : splitWs isSpace [] = [] := by rw [splitWs]

theorem collapseWs_nil : collapseWs isSpace [] = [] := by rw [collapseWs]

theorem takeWhile_append_of_all {p : Char → Bool} (w l : List Char)
    (hw : ∀ x ∈ w, p x = true) :
    (w ++ l).takeWhile p = w ++ l.takeWhile p := by
  induction w with
  | nil => rfl
  | cons a w ih =>
    have ha : p a = true := hw a (List.mem_cons_self a w)
    rw [List.cons_append, List.takeWhile_cons, ha]
    simp only [if_true, List.cons_append]
    rw [ih (fun x hx => hw x (List.mem_cons_of_mem a hx))]

theorem dropWhile_append_of_all {p : Char → Bool} (w l : List Char)
    (hw : ∀ x ∈ w, p x = true) :
    (w ++ l).dropWhile p = l.dropWhile p := by
  induction w with
  | nil => rfl
  | cons a w ih =>
    have ha : p a = true := hw a (List.mem_cons_self a w)
    rw [List.cons_append, List.dropWhile_cons, ha]
    simp only [if_true]
    exact ih (fun x hx => hw x (List.mem_cons_of_mem a hx))

theorem splitWs_all_nonspace (w : List Char) (hne : w ≠ [])
    (hw : ∀ x ∈ w, isSpace x = false) :
    splitWs isSpace w = [w] := by
  cases w with
  | nil => exact absurd rfl hne
  | cons c w =>
    have hc : isSpace c = false := hw c (List.mem_cons_self c w)
    rw [splitWs]
    simp only [hc, Bool.false_eq_true, if_false]
    have htk : w.takeWhile (fun d => !isSpace d) = w := by
      rw [List.takeWhile_eq_self_iff]
      intro x hx
      rw [hw x (List.mem_cons_of_mem c hx)]
      rfl
    have hdr : w.dropWhile (fun d => !isSpace d) = [] := by
      rw [List.dropWhile_eq_nil_iff]
      intro x hx
      rw [hw x (List.mem_cons_of_mem c hx)]
      rfl
    rw [htk, hdr, splitWs_nil]

theorem splitWs_word_sep (hsp : isSpace ' ' = true) (w m : List Char)
    (hne : w ≠ []) (hw : ∀ x ∈ w, isSpace x = false) :
    splitWs isSpace (w ++ ' ' :: m) = w :: splitWs isSpace m := by
  cases w with
  | nil => exact absurd rfl hne
  | cons c w =>
    have hc : isSpace c = false := hw c (List.mem_cons_self c w)
    have hwrest : ∀ x ∈ w, (fun d => !isSpace d) x = true := by
      intro x hx
      simp [hw x (List.mem_cons_of_mem c hx)]
    rw [List.cons_append, splitWs]
    simp only [hc, Bool.false_eq_true, if_false]
    rw [takeWhile_append_of_all w (' ' :: m) hwrest,
      dropWhile_append_of_all w (' ' :: m) hwrest]
    rw [List.takeWhile_cons, List.dropWhile_cons]
    simp only [hsp, Bool.not_true, Bool.false_eq_true, if_false,
      List.append_nil]
    rw [splitWs]
    simp only [hsp, if_true]

theorem join_split_collapse (hsp : isSpace ' ' = true) :
    ∀ (n : Nat) (l : List Char), l.length ≤ n →
      hns isSpace l → hns isSpace l.reverse →
      joinSpace (splitWs isSpace (collapseWs isSpace l))
        = collapseWs isSpace l := by
  intro n
  induction n with
  | zero =>
    intro l hlen _ _
    have : l = [] := List.length_eq_zero.mp (by omega)
    subst this
    rw [collapseWs_nil, splitWs_nil]
    rfl
  | succ n ih =>
    intro l hlen hh hl
    cases hle : l with
    | nil =>
      rw [collapseWs_nil, splitWs_nil]
      rfl
    | cons a rest =>
    rw [← hle]
    have ha : isSpace a = false := by
      refine hh a ?_
      rw [hle]
      rfl
    have hwne : l.takeWhile (fun d => !isSpace d) ≠ [] := by
      rw [hle, List.takeWhile_cons]
      simp [ha]
    have hwall : ∀ x ∈ l.takeWhile (fun d => !isSpace d), isSpace x = false := by
      intro x hx
      have := List.mem_takeWhile_imp hx
      simpa using this
    rw [collapseWs_decomp]
    cases hr : l.dropWhile (fun d => !isSpace d) with
    | nil =>
      rw [collapseWs_nil, List.append_nil]
      rw [splitWs_all_nonspace isSpace _ hwne hwall]
      rfl
    | cons d r2 =>
      have hd : isSpace d = true := by
        have hh2 := List.head_dropWhile_not (fun d => !isSpace d) l
          (by rw [hr]; exact List.cons_ne_nil d r2)
        have : (l.dropWhile (fun d => !isSpace d)).head
            (by rw [hr]; exact List.cons_ne_nil d r2) = d := by
          simp [hr]
        rw [this] at hh2
        simpa using hh2
      rw [show collapseWs isSpace (d :: r2)
        = ' ' :: collapseWs isSpace (r2.dropWhile isSpace) from by
          rw [collapseWs]; simp [hd]]
      have hsuffix : r2.dropWhile isSpace <:+ l := by
        refine (List.dropWhile_suffix isSpace).trans ?_
        refine (List.suffix_cons d r2).trans ?_
        rw [← hr]
        exact List.dropWhile_suffix _
      cases hr3 : r2.dropWhile isSpace with
      | nil =>
        exfalso
        have hallsp : ∀ x ∈ d :: r2, isSpace x = true := by
          intro x hx
          rcases List.mem_cons.mp hx with rfl | hx
          · exact hd
          · exact List.dropWhile_eq_nil_iff.mp hr3 x hx
        have hsuf2 : d :: r2 <:+ l := by
          rw [← hr]
          exact List.dropWhile_suffix _
        obtain ⟨t, ht⟩ := hsuf2
        have hrev : l.reverse = (d :: r2).reverse ++ t.reverse := by
          rw [← ht, List.reverse_append]
        have hlast : ∃ c, (d :: r2).reverse.head? = some c ∧ c ∈ d :: r2 := by
          cases hrev2 : (d :: r2).reverse with
          | nil =>
            exfalso
            have := congrArg List.length hrev2
            simp at this
          | cons c cs =>
            refine ⟨c, rfl, ?_⟩
            have : c ∈ (d :: r2).reverse := by
              rw [hrev2]
              exact List.mem_cons_self c cs
            exact List.mem_reverse.mp this
        obtain ⟨c, hc1, hc2⟩ := hlast
        have : l.reverse.head? = some c := by
          rw [hrev, List.head?_append, hc1]
          rfl
        have := hl c this
        rw [hallsp c hc2] at this
        exact absurd this (by simp)
      | cons e r3tail =>
        have he : isSpace e = false := by
          have hh2 := hns_dropWhile isSpace r2
          rw [hr3] at hh2
          exact hh2 e rfl
        rw [← hr3]
        have hcol3 : ∃ tail, collapseWs isSpace (r2.dropWhile isSpace)
            = e :: tail := by
          rw [hr3, collapseWs]
          simp [he]
        obtain ⟨tail, htail⟩ := hcol3
        rw [splitWs_word_sep isSpace hsp _ _ hwne hwall]
        have hsplit3 : ∃ w0 ws, splitWs isSpace
            (collapseWs isSpace (r2.dropWhile isSpace)) = w0 :: ws := by
          rw [htail, splitWs]
          simp [he]
        obtain ⟨w0, ws, hws⟩ := hsplit3
        have hlen3 : (r2.dropWhile isSpace).length ≤ n := by
          have h1 : (r2.dropWhile isSpace).length ≤ r2.length :=
            (List.dropWhile_sublist isSpace (l := r2)).length_le
          have h2 : (d :: r2).length ≤ l.length :=
            List.IsSuffix.length_le (by rw [← hr]; exact List.dropWhile_suffix _)
          simp only [List.length_cons] at h2
          omega
        have hih := ih (r2.dropWhile isSpace) hlen3
          (hns_dropWhile isSpace r2)
          (hns_reverse_of_suffix isSpace hsuffix hl)
        rw [hws] at hih
        rw [hws, joinSpace, hih]

theorem foldl_vote (h64 : List Char → Nat) (shingles : List (List Char)) :
    ∀ (v0 : Nat → Int) (i : Nat),
      (shingles.foldl (fun v sh => fun i =>
        v i + (if (h64 sh >>> i) &&& 1 = 1 then 1 else -1)) v0) i
      = v0 i + (shingles.map (fun sh =>
          if (h64 sh).testBit i then (1 : Int) else -1)).sum := by
  induction shingles with
  | nil => intro v0 i; simp
  | cons sh rest ih =>
    intro v0 i
    rw [List.foldl_cons, ih, List.map_cons, List.sum_cons]
    have hcond : ((h64 sh >>> i) &&& 1 = 1) ↔ ((h64 sh).testBit i = true) := by
      rw [Nat.and_one_is_mod, Nat.shiftRight_eq_div_pow,
        Nat.testBit_to_div_mod, decide_eq_true_eq]
    by_cases hb : (h64 sh).testBit i = true
    · rw [if_pos (hcond.mpr hb), if_pos hb]
      ring
    · rw [if_neg (fun h => hb (hcond.mp h)), if_neg hb]
      ring

theorem foldl_or_range_eq_sum (P : Nat → Prop) [DecidablePred P] :
    ∀ n : Nat,
      ((List.range n).foldl
          (fun r i => if P i then r ||| (1 <<< i) else r) 0
        = ∑ i ∈ Finset.range n, if P i then 2 ^ i else 0)
      ∧ (∑ i ∈ Finset.range n, (if P i then 2 ^ i else (0 : Nat))) < 2 ^ n := by
  intro n
  induction n with
  | zero => exact ⟨rfl, by simp⟩
  | succ n ih =>
    obtain ⟨ih1, ih2⟩ := ih
    have hpow : (2 : Nat) ^ (n + 1) = 2 ^ n + 2 ^ n := by ring
    constructor
    · rw [List.range_succ, List.foldl_append, ih1, Finset.sum_range_succ]
      simp only [List.foldl_cons, List.foldl_nil]
      by_cases hp : P n
      · rw [if_pos hp, if_pos hp, Nat.shiftLeft_eq, one_mul,
          lor_two_pow_of_lt ih2]
      · rw [if_neg hp, if_neg hp, Nat.add_zero]
    · rw [Finset.sum_range_succ]
      by_cases hp : P n
      · rw [if_pos hp]
        omega
      · rw [if_neg hp]
        omega

theorem simhash_body_eq (h64 : List Char → Nat) (S : List (List Char)) :
    simhash_result h64 S = spec_fingerprint h64 S := by
  unfold simhash_result spec_fingerprint
  have hv : ∀ i, simhash_votes h64 S i = spec_vote h64 S i := by
    intro i
    unfold simhash_votes spec_vote
    rw [foldl_vote]
    ring
  obtain ⟨hfold, hlt⟩ := foldl_or_range_eq_sum
    (fun i => 0 < simhash_votes h64 S i) 64
  rw [hfold, Nat.and_pow_two_sub_one_eq_mod, Nat.mod_eq_of_lt hlt]
  refine Finset.sum_congr rfl ?_
  intro i _
  rw [hv i]

end SimhashLemmas

/-- C4: for every input text, `compute_simhash` returns exactly the
fingerprint the spec's algorithm defines (same normalization, shingling with
the whole normalized string as single shingle below 3 words, ±1 bit votes,
bit set iff vote > 0, empty normalized text ↦ 0); the result is always a
64-bit value; and identical normalized input yields an identical
fingerprint.  `isSpace`/`lower`/`h64` abstract Python's whitespace class,
per-character lowercasing and the 64-bit shingle hash, shared by source and
spec; the space character counts as whitespace. -/
theorem compute_simhash_matches_spec (isSpace : Char → Bool)
    (h64 : List Char → Nat) (lower : Char → Char)
    (hsp : isSpace ' ' = true) :
    (∀ text, compute_simhash isSpace h64 lower text
      = spec_simhash isSpace h64 lower text)
    ∧ (∀ text, compute_simhash isSpace h64 lower text < 2 ^ 64)
    ∧ (∀ t1 t2,
      _normalize_text isSpace lower t1 = _normalize_text isSpace lower t2 →
      compute_simhash isSpace h64 lower t1
        = compute_simhash isSpace h64 lower t2) := by
  have hmain : ∀ text, compute_simhash isSpace h64 lower text
      = spec_simhash isSpace h64 lower text := by
    intro text
    simp only [compute_simhash, spec_simhash]
    by_cases hNe : _normalize_text isSpace lower text = []
    · rw [if_pos hNe, if_pos hNe]
    · rw [if_neg hNe, if_neg hNe]
      have htext : text ≠ [] := by
        intro h
        refine hNe ?_
        rw [h]
        rfl
      have hNc : _normalize_text isSpace lower text
          = collapseWs isSpace (stripWs isSpace (text.map lower)) := by
        unfold _normalize_text
        rw [if_neg htext]
      have hstripN : joinSpace (splitWs isSpace
          (_normalize_text isSpace lower text))
          = _normalize_text isSpace lower text := by
        rw [hNc]
        exact join_split_collapse isSpace hsp
          (stripWs isSpace (text.map lower)).length _ le_rfl
          (hns_stripWs isSpace _) (lns_stripWs isSpace _)
      have hhns : hns isSpace (_normalize_text isSpace lower text) := by
        rw [hNc]
        exact hns_collapseWs isSpace _ (hns_stripWs isSpace _)
      obtain ⟨c, crest, hcons⟩ : ∃ c crest,
          _normalize_text isSpace lower text = c :: crest := by
        cases hN : _normalize_text isSpace lower text with
        | nil => exact absurd hN hNe
        | cons c crest => exact ⟨c, crest, rfl⟩
      have hc : isSpace c = false := hhns c (by rw [hcons]; rfl)
      have hwordsne : splitWs isSpace
          (_normalize_text isSpace lower text) ≠ [] := by
        rw [hcons, splitWs]
        simp [hc]
      simp only [_word_shingles]
      set N := _normalize_text isSpace lower text with hNdef
      set W := splitWs isSpace N with hWdef
      by_cases hlt : W.length < 3
      · have hSHeq : (if W.length < 3 then (if W = [] then [] else [joinSpace W])
            else (List.range (W.length - 3 + 1)).map
              (fun i => joinSpace ((W.drop i).take 3))) = [N] := by
          rw [if_pos hlt, if_neg hwordsne, hstripN]
        have hSHne : (if W.length < 3 then (if W = [] then [] else [joinSpace W])
            else (List.range (W.length - 3 + 1)).map
              (fun i => joinSpace ((W.drop i).take 3))) ≠ [] := by
          rw [hSHeq]
          exact List.cons_ne_nil _ _
        rw [if_neg hSHne, hSHeq, if_pos hlt]
        exact simhash_body_eq h64 _
      · have hmapne : (List.range (W.length - 3 + 1)).map
            (fun i => joinSpace ((W.drop i).take 3)) ≠ [] := by
          intro hmap
          have := congrArg List.length hmap
          simp only [List.length_map, List.length_range, List.length_nil] at this
          omega
        have hSHeq : (if W.length < 3 then (if W = [] then [] else [joinSpace W])
            else (List.range (W.length - 3 + 1)).map
              (fun i => joinSpace ((W.drop i).take 3)))
            = (List.range (W.length - 3 + 1)).map
              (fun i => joinSpace ((W.drop i).take 3)) := if_neg hlt
        have hSHne : (if W.length < 3 then (if W = [] then [] else [joinSpace W])
            else (List.range (W.length - 3 + 1)).map
              (fun i => joinSpace ((W.drop i).take 3))) ≠ [] := by
          rw [hSHeq]
          exact hmapne
        rw [if_neg hSHne, hSHeq, if_neg hlt]
        exact simhash_body_eq h64 _
  refine ⟨hmain, ?_, ?_⟩
  · intro text
    rw [hmain text]
    simp only [spec_simhash]
    by_cases hNe : _normalize_text isSpace lower text = []
    · rw [if_pos hNe]
      positivity
    · rw [if_neg hNe]
      exact (foldl_or_range_eq_sum _ 64).2
  · intro t1 t2 h
    simp only [compute_simhash, h]

/-- Witness for `compute_simhash_matches_spec`: concrete whitespace class,
identity lowercase map, a concrete hash and input. -/
theorem compute_simhash_matches_spec_witness :
    compute_simhash (fun c => c == ' ') (fun l => l.length) (fun c => c)
      ("hello world".toList)
    = spec_simhash (fun c => c == ' ') (fun l => l.length) (fun c => c)
      ("hello world".toList) :=
  (compute_simhash_matches_spec (fun c => c == ' ') (fun l => l.length)
    (fun c => c) (by decide)).1 ("hello world".toList)

/-! ## dedup.py: `group_by_simhash` union-find duplicate grouping (C1) -/

/-- A row handed to `group_by_simhash` (`simhash64`, `id`, `created_at`
fields; `None` modelled as `Option.none`, item ids as `Nat`, timestamps as
`Int`). -/
structure BookmarkRow where
  simhash64 : Option Int
  id : Option Nat
  created_at : Option Int
deriving DecidableEq, Repr

/-- The `items` list built by `group_by_simhash`: rows missing the simhash or
the id are skipped; stored (possibly signed) simhashes are normalized to
unsigned 64-bit. -/
def rowItems (rows : List BookmarkRow) : List (Nat × Nat × Option Int) :=
  rows.filterMap (fun row =>
    match row.simhash64, row.id with
    | some sh, some bid => some (toUint64 sh, bid, row.created_at)
    | _, _ => none)

/-- The stable sort key `(x[2] is None, -(x[2].timestamp() if x[2] else 0))`
compared lexicographically (`False < True` on the first component), giving
newest-first order with `None` timestamps last. -/
def createdLe (a b : Nat × Nat × Option Int) : Bool :=
  decide ((a.2.2.isNone = false ∧ b.2.2.isNone = true)
    ∨ (a.2.2.isNone = b.2.2.isNone ∧ -(a.2.2.getD 0) ≤ -(b.2.2.getD 0)))

/-- One step of the (uncompressed) `find` chain with explicit fuel; the
parent map is total with identity default (`if s not in parent:
parent[s] = s`). -/
def ufFind (fuel : Nat) (parent : Nat → Nat) (s : Nat) : Nat :=
  match fuel with
  | 0 => s
  | fuel + 1 => if parent s = s then s else ufFind fuel parent (parent s)

/-- `union(s1, s2)` from `group_by_simhash`: link the root of `s1` under the
root of `s2` when they differ.  The source's `find` additionally compresses
paths; compression only re-points nodes directly at their current root and
never changes any `find` result, so the embedding keeps the forest
uncompressed. -/
def ufUnion (fuel : Nat) (parent : Nat → Nat) (s1 s2 : Nat) : Nat → Nat :=
  let p1 := ufFind fuel parent s1
  let p2 := ufFind fuel parent s2
  if p1 = p2 then parent else fun s => if s = p1 then p2 else parent s

/-- The ordered pairs visited by
`for i, s1 in enumerate(simhashes): for s2 in simhashes[i+1:]`. -/
def allPairs : List Nat → List (Nat × Nat)
  | [] => []
  | x :: xs => xs.map (fun y => (x, y)) ++ allPairs xs

/-- The union loop: union every pair within the Hamming threshold. -/
def unionPairs (fuel threshold : Nat) (pairs : List (Nat × Nat))
    (parent : Nat → Nat) : Nat → Nat :=
  pairs.foldl (fun p pr =>
    if hamming_distance (pr.1 : Int) (pr.2 : Int) ≤ threshold
    then ufUnion fuel p pr.1 pr.2 else p) parent

/-- `buckets[canonical].append(item)` with dict insertion order. -/
def addToBucket :
    List (Nat × List (Nat × Nat × Option Int)) → Nat → (Nat × Nat × Option Int)
      → List (Nat × List (Nat × Nat × Option Int))
  | [], c, it => [(c, [it])]
  | b :: rest, c, it =>
    if b.1 = c then (b.1, b.2 ++ [it]) :: rest
    else b :: addToBucket rest c it

/-- `group_by_simhash` from `dedup.py`: returns
`(simhash_bucket, member ids, representative id)` triples; the
representative is the first member (newest by the sort). -/
def group_by_simhash (rows : List BookmarkRow) (hamming_threshold : Nat) :
    List (Nat × List Nat × Nat) :=
  if rows = [] then []
  else
    let items0 := rowItems rows
    if items0 = [] then []
    else
      let items := items0.mergeSort createdLe
      let simhashes := (items.map (fun x => x.1)).dedup
      let pairs := allPairs simhashes
      let fuel := pairs.length + 1
      let parent := unionPairs fuel hamming_threshold pairs (fun s => s)
      let buckets := items.foldl
        (fun bks it => addToBucket bks (ufFind fuel parent it.1) it) []
      buckets.map (fun b =>
        (b.1, b.2.map (fun x => x.2.1), (b.2.map (fun x => x.2.1)).headD 0))

/-- Fuel `n` suffices for `ufFind` to reach a root from every start. -/
def UFBounded (parent : Nat → Nat) (n : Nat) : Prop :=
  ∀ s, parent (ufFind n parent s) = ufFind n parent s

theorem ufFind_of_root {parent : Nat → Nat} {s : Nat} (h : parent s = s) :
    ∀ fuel, ufFind fuel parent s = s := by
  intro fuel
  cases fuel with
  | zero => rfl
  | succ f => rw [ufFind, if_pos h]

theorem ufFind_stable {parent : Nat → Nat} :
    ∀ (f : Nat) (s : Nat), parent (ufFind f parent s) = ufFind f parent s →
      ∀ g, f ≤ g → ufFind g parent s = ufFind f parent s := by
  intro f
  induction f with
  | zero =>
    intro s h g _
    exact ufFind_of_root h g
  | succ f ih =>
    intro s h g hg
    by_cases hr : parent s = s
    · rw [ufFind_of_root hr g, ufFind_of_root hr (f + 1)]
    · cases g with
      | zero => omega
      | succ g =>
        rw [ufFind, if_neg hr] at h ⊢
        rw [show ufFind (f + 1) parent s = ufFind f parent (parent s) from by
          rw [ufFind, if_neg hr]]
        exact ih (parent s) h g (by omega)

theorem ufBounded_mono {parent : Nat → Nat} {n m : Nat}
    (h : UFBounded parent n) (hnm : n ≤ m) :
    (∀ s, ufFind m parent s = ufFind n parent s) ∧ UFBounded parent m := by
  have he : ∀ s, ufFind m parent s = ufFind n parent s := fun s =>
    ufFind_stable n s (h s) m hnm
  refine ⟨he, fun s => ?_⟩
  rw [he s]
  exact h s

theorem id_ufBounded : UFBounded (fun s => s) 0 := fun _ => rfl

theorem ufUnion_char {parent : Nat → Nat} {n : Nat} (hB : UFBounded parent n)
    (F : Nat) (hF : n + 1 ≤ F) (s1 s2 : Nat) :
    UFBounded (ufUnion F parent s1 s2) (n + 1)
    ∧ (∀ x, ufFind F (ufUnion F parent s1 s2) x
        = if ufFind F parent x = ufFind F parent s1
          then ufFind F parent s2 else ufFind F parent x) := by
  have hnF : n ≤ F := by omega
  have hstab := (ufBounded_mono hB hnF).1
  have hBF := (ufBounded_mono hB hnF).2
  by_cases hr : ufFind F parent s1 = ufFind F parent s2
  · have hq : ufUnion F parent s1 s2 = parent := by
      unfold ufUnion
      rw [if_pos hr]
    rw [hq]
    refine ⟨(ufBounded_mono hB (by omega)).2, fun x => ?_⟩
    by_cases hx : ufFind F parent x = ufFind F parent s1
    · rw [if_pos hx, ← hr, hx]
    · rw [if_neg hx]
  · have hq : ufUnion F parent s1 s2
        = fun s => if s = ufFind F parent s1 then ufFind F parent s2
            else parent s := by
      unfold ufUnion
      rw [if_neg hr]
    have hroot1 : parent (ufFind F parent s1) = ufFind F parent s1 := hBF s1
    have hroot2 : parent (ufFind F parent s2) = ufFind F parent s2 := hBF s2
    set r1 := ufFind F parent s1 with hr1
    set r2 := ufFind F parent s2 with hr2
    set q : Nat → Nat := fun s => if s = r1 then r2 else parent s with hqdef
    have hq2 : ∀ s, q s = if s = r1 then r2 else parent s := fun s => rfl
    have hqr2 : q r2 = r2 := by
      rw [hq2, if_neg (fun h => hr h.symm), hroot2]
    have aux : ∀ (f : Nat) (s : Nat),
        parent (ufFind f parent s) = ufFind f parent s →
        ufFind (f + 1) q s
          = if ufFind f parent s = r1 then r2 else ufFind f parent s := by
      intro f
      induction f with
      | zero =>
        intro s h
        by_cases hs : s = r1
        · have hqs : q s = r2 := by rw [hq2, if_pos hs]
          have hne : ¬ q s = s := by
            rw [hqs]
            intro h2
            exact hr (h2.trans hs).symm
          rw [show ufFind 0 parent s = s from rfl, if_pos hs]
          rw [ufFind, if_neg hne, hqs]
          rfl
        · have hp : parent s = s := h
          have hqs : q s = s := by rw [hq2, if_neg hs, hp]
          rw [show ufFind 0 parent s = s from rfl, if_neg hs]
          rw [ufFind, if_pos hqs]
      | succ f ih =>
        intro s h
        by_cases hroot : parent s = s
        · rw [ufFind_of_root hroot (f + 1)]
          by_cases hs : s = r1
          · have hqs : q s = r2 := by rw [hq2, if_pos hs]
            have hne : ¬ q s = s := by
              rw [hqs]
              intro h2
              exact hr (h2.trans hs).symm
            rw [if_pos hs, ufFind, if_neg hne, hqs]
            exact ufFind_of_root hqr2 (f + 1)
          · have hqs : q s = s := by rw [hq2, if_neg hs, hroot]
            rw [if_neg hs, ufFind, if_pos hqs]
        · have hs : s ≠ r1 := by
            intro he
            rw [he] at hroot
            exact hroot hroot1
          have hqs : q s = parent s := by rw [hq2, if_neg hs]
          have hstep : ufFind (f + 1) parent s = ufFind f parent (parent s) := by
            rw [ufFind, if_neg hroot]
          rw [hstep] at h ⊢
          rw [show ufFind (f + 1 + 1) q s = ufFind (f + 1) q (q s) from by
            rw [ufFind]
            rw [if_neg (by rw [hqs]; exact hroot)]]
          rw [hqs]
          exact ih (parent s) h
    have hBq : UFBounded q (n + 1) := by
      intro x
      rw [aux n x (hB x)]
      by_cases hx : ufFind n parent x = r1
      · rw [if_pos hx]
        exact hqr2
      · rw [if_neg hx]
        rw [hq2, if_neg hx, hB x]
    rw [hq]
    refine ⟨hBq, fun x => ?_⟩
    have hFq : ufFind F q x = ufFind (n + 1) q x :=
      ufFind_stable (n + 1) x (hBq x) F hF
    rw [hFq, aux n x (hB x), hstab x]

theorem hamming_comm (a b : Int) : hamming_distance a b = hamming_distance b a := by
  simp [hamming_distance, Nat.xor_comm]

theorem unionPairs_invariant (F threshold : Nat) :
    ∀ (pairs : List (Nat × Nat)) (parent : Nat → Nat) (n : Nat),
      UFBounded parent n → n + pairs.length + 1 ≤ F →
      ∃ m, m ≤ n + pairs.length
        ∧ UFBounded (unionPairs F threshold pairs parent) m
        ∧ (∀ a b, ufFind F parent a = ufFind F parent b →
            ufFind F (unionPairs F threshold pairs parent) a
              = ufFind F (unionPairs F threshold pairs parent) b)
        ∧ (∀ p ∈ pairs,
            hamming_distance (p.1 : Int) (p.2 : Int) ≤ threshold →
            ufFind F (unionPairs F threshold pairs parent) p.1
              = ufFind F (unionPairs F threshold pairs parent) p.2) := by
  intro pairs
  induction pairs with
  | nil =>
    intro parent n hB _
    exact ⟨n, by omega, hB, fun a b h => h, by simp⟩
  | cons pr rest ih =>
    intro parent n hB hF
    have hstep : unionPairs F threshold (pr :: rest) parent
        = unionPairs F threshold rest
            (if hamming_distance (pr.1 : Int) (pr.2 : Int) ≤ threshold
             then ufUnion F parent pr.1 pr.2 else parent) := rfl
    by_cases hd : hamming_distance (pr.1 : Int) (pr.2 : Int) ≤ threshold
    · have hq : unionPairs F threshold (pr :: rest) parent
          = unionPairs F threshold rest (ufUnion F parent pr.1 pr.2) := by
        rw [hstep, if_pos hd]
      have hchar := ufUnion_char hB F (by simp at hF ⊢; omega) pr.1 pr.2
      obtain ⟨m, hm, hBm, hpres, hpairs⟩ :=
        ih (ufUnion F parent pr.1 pr.2) (n + 1) hchar.1
          (by simp at hF ⊢; omega)
      refine ⟨m, by simp; omega, by rw [hq]; exact hBm, ?_, ?_⟩
      · intro a b hab
        rw [hq]
        refine hpres a b ?_
        rw [hchar.2 a, hchar.2 b, hab]
      · intro p hp hpd
        rcases List.mem_cons.1 hp with rfl | hp
        · rw [hq]
          refine hpres p.1 p.2 ?_
          rw [hchar.2 p.1, hchar.2 p.2]
          by_cases h2 : ufFind F parent p.2 = ufFind F parent p.1
          · rw [if_pos rfl, if_pos h2]
          · rw [if_pos rfl, if_neg h2]
        · rw [hq]
          exact hpairs p hp hpd
    · have hq : unionPairs F threshold (pr :: rest) parent
          = unionPairs F threshold rest parent := by
        rw [hstep, if_neg hd]
      obtain ⟨m, hm, hBm, hpres, hpairs⟩ :=
        ih parent n hB (by simp at hF ⊢; omega)
      refine ⟨m, by simp; omega, by rw [hq]; exact hBm,
        by rw [hq]; exact hpres, ?_⟩
      intro p hp hpd
      rcases List.mem_cons.1 hp with rfl | hp
      · exact absurd hpd hd
      · rw [hq]
        exact hpairs p hp hpd

theorem mem_allPairs :
    ∀ (l : List Nat) (a b : Nat), a ∈ l → b ∈ l → a ≠ b →
      (a, b) ∈ allPairs l ∨ (b, a) ∈ allPairs l := by
  intro l
  induction l with
  | nil => simp
  | cons x xs ih =>
    intro a b ha hb hne
    by_cases hax : a = x
    · have hb2 : b ∈ xs := by
        rcases List.mem_cons.1 hb with he | h2
        · exact absurd (hax.trans he.symm) hne
        · exact h2
      left
      rw [allPairs, hax]
      exact List.mem_append_left _ (List.mem_map.2 ⟨b, hb2, rfl⟩)
    · have ha2 : a ∈ xs := by
        rcases List.mem_cons.1 ha with he | h2
        · exact absurd he hax
        · exact h2
      by_cases hbx : b = x
      · right
        rw [allPairs, hbx]
        exact List.mem_append_left _ (List.mem_map.2 ⟨a, ha2, rfl⟩)
      · have hb2 : b ∈ xs := by
          rcases List.mem_cons.1 hb with he | h2
          · exact absurd he hbx
          · exact h2
        rcases ih a b ha2 hb2 hne with h | h
        · left
          rw [allPairs]
          exact List.mem_append_right _ h
        · right
          rw [allPairs]
          exact List.mem_append_right _ h

theorem addToBucket_invariant
    (key : (Nat × Nat × Option Int) → Nat)
    (it : Nat × Nat × Option Int)
    (processed : List (Nat × Nat × Option Int)) :
    ∀ (bks : List (Nat × List (Nat × Nat × Option Int))),
      (bks.map Prod.fst).Nodup →
      (∀ e ∈ bks, e.2 = processed.filter (fun x => key x = e.1)) →
      ((key it) ∉ bks.map Prod.fst →
        processed.filter (fun x => key x = key it) = []) →
      (((addToBucket bks (key it) it).map Prod.fst).Nodup
       ∧ (∀ e ∈ addToBucket bks (key it) it,
            e.2 = (processed ++ [it]).filter (fun x => key x = e.1))
       ∧ ∀ c, c ∈ (addToBucket bks (key it) it).map Prod.fst ↔
           (c ∈ bks.map Prod.fst ∨ c = key it)) := by
  intro bks
  induction bks with
  | nil =>
    intro _ _ hmiss
    refine ⟨by simp [addToBucket], ?_, ?_⟩
    · intro e he
      simp only [addToBucket, List.mem_singleton] at he
      subst he
      simp [List.filter_append, hmiss (by simp)]
    · intro c
      simp [addToBucket]
  | cons b rest ih =>
    intro hnd hent hmiss
    have hnd2 : b.1 ∉ rest.map Prod.fst ∧ (rest.map Prod.fst).Nodup := by
      rw [List.map_cons] at hnd
      exact List.nodup_cons.1 hnd
    have hbrest := hnd2.1
    have hndrest := hnd2.2
    by_cases hb : b.1 = key it
    · have heq : addToBucket (b :: rest) (key it) it
          = (b.1, b.2 ++ [it]) :: rest := by
        rw [addToBucket, if_pos hb]
      refine ⟨?_, ?_, ?_⟩
      · rw [heq]
        simpa using hnd
      · intro e he
        rw [heq] at he
        rcases List.mem_cons.1 he with rfl | he2
        · have hfit : List.filter (fun x => decide (key x = b.1)) [it]
              = [it] := by
            simp [hb]
          simp only [List.filter_append, hfit]
          have := hent b (List.mem_cons_self b rest)
          simp only at this ⊢
          rw [← this]
        · have hene : e.1 ≠ b.1 := by
            intro hcontra
            exact hbrest (hcontra ▸ List.mem_map.2 ⟨e, he2, rfl⟩)
          have hfit : List.filter (fun x => decide (key x = e.1)) [it]
              = [] := by
            simp only [List.filter]
            rw [decide_eq_false (by rw [← hb]; exact fun h => hene h.symm)]
          rw [List.filter_append, hfit, List.append_nil]
          exact hent e (List.mem_cons_of_mem b he2)
      · intro c
        rw [heq]
        simp only [List.map_cons, List.mem_cons]
        constructor
        · intro h
          rcases h with h | h
          · exact Or.inl (Or.inl h)
          · exact Or.inl (Or.inr h)
        · intro h
          rcases h with (h | h) | h
          · exact Or.inl h
          · exact Or.inr h
          · exact Or.inl (h.trans hb.symm)
    · have heq : addToBucket (b :: rest) (key it) it
          = b :: addToBucket rest (key it) it := by
        rw [addToBucket, if_neg hb]
      have hentrest : ∀ e ∈ rest, e.2
          = processed.filter (fun x => key x = e.1) :=
        fun e he => hent e (List.mem_cons_of_mem b he)
      have hmissrest : (key it) ∉ rest.map Prod.fst →
          processed.filter (fun x => key x = key it) = [] := by
        intro hni
        refine hmiss ?_
        simp only [List.map_cons, List.mem_cons]
        rintro (h | h)
        · exact hb h.symm
        · exact hni h
      obtain ⟨ih1, ih2, ih3⟩ := ih hndrest hentrest hmissrest
      refine ⟨?_, ?_, ?_⟩
      · rw [heq]
        simp only [List.map_cons]
        refine List.nodup_cons.2 ⟨?_, ih1⟩
        intro hmem
        rcases (ih3 b.1).1 hmem with h | h
        · exact hbrest h
        · exact hb h
      · intro e he
        rw [heq] at he
        rcases List.mem_cons.1 he with rfl | he2
        · have hfit : List.filter (fun x => decide (key x = e.1)) [it]
              = [] := by
            simp only [List.filter]
            rw [decide_eq_false (fun h => hb h.symm)]
          rw [List.filter_append, hfit, List.append_nil]
          exact hent e (List.mem_cons_self e rest)
        · exact ih2 e he2
      · intro c
        rw [heq]
        simp only [List.map_cons, List.mem_cons]
        rw [ih3 c]
        tauto

theorem bucketsFold_spec (key : (Nat × Nat × Option Int) → Nat) :
    ∀ (items processed : List (Nat × Nat × Option Int))
      (acc : List (Nat × List (Nat × Nat × Option Int))),
      (acc.map Prod.fst).Nodup →
      (∀ e ∈ acc, e.2 = processed.filter (fun x => key x = e.1)) →
      (∀ c, c ∈ acc.map Prod.fst ↔ c ∈ processed.map key) →
      (((items.foldl (fun bks x => addToBucket bks (key x) x) acc).map
          Prod.fst).Nodup
       ∧ (∀ e ∈ items.foldl (fun bks x => addToBucket bks (key x) x) acc,
           e.2 = (processed ++ items).filter (fun x => key x = e.1))
       ∧ ∀ c, c ∈ (items.foldl (fun bks x => addToBucket bks (key x) x)
             acc).map Prod.fst ↔ c ∈ (processed ++ items).map key) := by
  intro items
  induction items with
  | nil =>
    intro processed acc h1 h2 h3
    refine ⟨by simpa using h1, ?_, by simpa using h3⟩
    intro e he
    rw [List.append_nil]
    exact h2 e (by simpa using he)
  | cons it rest ih =>
    intro processed acc h1 h2 h3
    have hmiss : (key it) ∉ acc.map Prod.fst →
        processed.filter (fun x => key x = key it) = [] := by
      intro hni
      rw [List.filter_eq_nil_iff]
      intro x hx
      simp only [decide_eq_true_eq]
      intro hkx
      exact hni ((h3 (key it)).2 (List.mem_map.2 ⟨x, hx, hkx⟩))
    obtain ⟨a1, a2, a3⟩ := addToBucket_invariant key it processed acc h1 h2 hmiss
    have h3' : ∀ c, c ∈ (addToBucket acc (key it) it).map Prod.fst ↔
        c ∈ (processed ++ [it]).map key := by
      intro c
      rw [a3 c, List.map_append, List.mem_append]
      rw [h3 c]
      simp
    obtain ⟨r1, r2, r3⟩ := ih (processed ++ [it])
      (addToBucket acc (key it) it) a1 a2 h3'
    have hfold : (it :: rest).foldl (fun bks x => addToBucket bks (key x) x)
        acc = rest.foldl (fun bks x => addToBucket bks (key x) x)
          (addToBucket acc (key it) it) := rfl
    have happ : processed ++ [it] ++ rest = processed ++ it :: rest := by
      simp
    rw [hfold, ← happ]
    exact ⟨r1, r2, r3⟩

/-- The sorted `items` local of `group_by_simhash`. -/
def gbsItems (rows : List BookmarkRow) : List (Nat × Nat × Option Int) :=
  (rowItems rows).mergeSort createdLe

/-- The candidate pair list of `group_by_simhash`. -/
def gbsPairs (rows : List BookmarkRow) : List (Nat × Nat) :=
  allPairs ((gbsItems rows).map (fun x => x.1)).dedup

/-- Find fuel sufficient for the union phase. -/
def gbsFuel (rows : List BookmarkRow) : Nat :=
  (gbsPairs rows).length + 1

/-- The `parent` map after the union loop of `group_by_simhash`. -/
def gbsParent (rows : List BookmarkRow) (t : Nat) : Nat → Nat :=
  unionPairs (gbsFuel rows) t (gbsPairs rows) (fun s => s)

/-- The `buckets` dict of `group_by_simhash`. -/
def gbsBuckets (rows : List BookmarkRow) (t : Nat) :
    List (Nat × List (Nat × Nat × Option Int)) :=
  (gbsItems rows).foldl
    (fun bks it =>
      addToBucket bks (ufFind (gbsFuel rows) (gbsParent rows t) it.1) it) []

theorem group_by_simhash_eq (rows : List BookmarkRow) (t : Nat)
    (hrows : rows ≠ []) (hitems0 : rowItems rows ≠ []) :
    group_by_simhash rows t = (gbsBuckets rows t).map (fun b =>
      (b.1, b.2.map (fun x => x.2.1), (b.2.map (fun x => x.2.1)).headD 0)) := by
  simp only [group_by_simhash]
  rw [if_neg hrows, if_neg hitems0]
  rfl

theorem gbsParent_root_eq (rows : List BookmarkRow) (t : Nat) {a b : Nat}
    (ha : a ∈ (gbsItems rows).map (fun x => x.1))
    (hb : b ∈ (gbsItems rows).map (fun x => x.1))
    (hd : hamming_distance (a : Int) (b : Int) ≤ t) :
    ufFind (gbsFuel rows) (gbsParent rows t) a
      = ufFind (gbsFuel rows) (gbsParent rows t) b := by
  by_cases hab : a = b
  · rw [hab]
  · obtain ⟨m, hm, hBm, hpres, hpair⟩ := unionPairs_invariant (gbsFuel rows) t
      (gbsPairs rows) (fun s => s) 0 id_ufBounded
      (by simp only [gbsFuel]; omega)
    have had : a ∈ ((gbsItems rows).map (fun x => x.1)).dedup :=
      List.mem_dedup.2 ha
    have hbd : b ∈ ((gbsItems rows).map (fun x => x.1)).dedup :=
      List.mem_dedup.2 hb
    rcases mem_allPairs _ a b had hbd hab with h | h
    · exact hpair (a, b) h hd
    · exact (hpair (b, a) h (by rw [hamming_comm]; exact hd)).symm

/-- C1: in `group_by_simhash` with the default threshold 3, if simhash `A` is
within Hamming distance 3 of `B` and `B` is within 3 of `C`, then every item
carrying one of these simhashes lands in one single duplicate group, even when
`A` and `C` are farther than 3 apart: union-find closes relatedness
transitively. -/
theorem group_by_simhash_transitive (rows : List BookmarkRow) (A B C : Nat)
    (hA : A ∈ (rowItems rows).map (fun x => x.1))
    (hB : B ∈ (rowItems rows).map (fun x => x.1))
    (hC : C ∈ (rowItems rows).map (fun x => x.1))
    (hAB : hamming_distance (A : Int) (B : Int) ≤ 3)
    (hBC : hamming_distance (B : Int) (C : Int) ≤ 3) :
    ∃ g ∈ group_by_simhash rows 3, ∀ it ∈ rowItems rows,
      (it.1 = A ∨ it.1 = B ∨ it.1 = C) → it.2.1 ∈ g.2.1 := by
  have hitems0 : rowItems rows ≠ [] := by
    intro h
    rw [h] at hA
    simp at hA
  have hrows : rows ≠ [] := by
    intro h
    rw [h] at hitems0
    exact hitems0 rfl
  have hperm : ∀ x : Nat × Nat × Option Int,
      x ∈ gbsItems rows ↔ x ∈ rowItems rows :=
    fun x => (List.mergeSort_perm (rowItems rows) createdLe).mem_iff
  have hmap : ∀ s : Nat, s ∈ (rowItems rows).map (fun x => x.1) →
      s ∈ (gbsItems rows).map (fun x => x.1) := by
    intro s hs
    obtain ⟨x, hx, hxe⟩ := List.mem_map.1 hs
    exact List.mem_map.2 ⟨x, (hperm x).2 hx, hxe⟩
  have hrootAB := gbsParent_root_eq rows 3 (hmap A hA) (hmap B hB) hAB
  have hrootBC := gbsParent_root_eq rows 3 (hmap B hB) (hmap C hC) hBC
  obtain ⟨b1, b2, b3⟩ := bucketsFold_spec
    (fun it => ufFind (gbsFuel rows) (gbsParent rows 3) it.1)
    (gbsItems rows) [] [] (by simp) (by simp) (by simp)
  obtain ⟨itA, hitA, hitAe⟩ := List.mem_map.1 (hmap A hA)
  have hcmem : ufFind (gbsFuel rows) (gbsParent rows 3) A
      ∈ (([] : List (Nat × Nat × Option Int)) ++ gbsItems rows).map
        (fun it => ufFind (gbsFuel rows) (gbsParent rows 3) it.1) := by
    simp only [List.nil_append]
    refine List.mem_map.2 ⟨itA, hitA, ?_⟩
    show ufFind (gbsFuel rows) (gbsParent rows 3) itA.1
      = ufFind (gbsFuel rows) (gbsParent rows 3) A
    rw [hitAe]
  obtain ⟨e, he, hec⟩ := List.mem_map.1 ((b3 _).2 hcmem)
  have hefilter := b2 e he
  have hebucket : e ∈ gbsBuckets rows 3 := he
  refine ⟨(e.1, e.2.map (fun x => x.2.1),
    (e.2.map (fun x => x.2.1)).headD 0), ?_, ?_⟩
  · rw [group_by_simhash_eq rows 3 hrows hitems0]
    exact List.mem_map.2 ⟨e, hebucket, rfl⟩
  · intro it hit hcase
    have hit2 : it ∈ gbsItems rows := (hperm it).2 hit
    have hkey : ufFind (gbsFuel rows) (gbsParent rows 3) it.1
        = ufFind (gbsFuel rows) (gbsParent rows 3) A := by
      rcases hcase with h | h | h
      · rw [h]
      · rw [h, ← hrootAB]
      · rw [h, ← hrootBC, ← hrootAB]
    have hmem : it ∈ e.2 := by
      rw [hefilter]
      refine List.mem_filter.2 ⟨by simpa using hit2, ?_⟩
      simp only [decide_eq_true_eq]
      show ufFind (gbsFuel rows) (gbsParent rows 3) it.1 = e.1
      rw [hkey, ← hec]
    exact List.mem_map.2 ⟨it, hmem, rfl⟩

/-- Witness for `group_by_simhash_transitive`: simhashes 0, 3 and 15 with
pairwise distances 2, 2 and 4; the outer pair is beyond the threshold yet all
three ids are grouped together. -/
theorem group_by_simhash_transitive_witness :
    ∃ g ∈ group_by_simhash
      [⟨some 0, some 1, some 10⟩, ⟨some 3, some 2, some 20⟩,
       ⟨some 15, some 3, none⟩] 3,
      ∀ it ∈ rowItems
        [⟨some 0, some 1, some 10⟩, ⟨some 3, some 2, some 20⟩,
         ⟨some 15, some 3, none⟩],
        (it.1 = 0 ∨ it.1 = 3 ∨ it.1 = 15) → it.2.1 ∈ g.2.1 :=
  group_by_simhash_transitive _ 0 3 15
    (by decide) (by decide) (by decide)
    (by rw [hamming_distance, specPopcount64_eq _
        (Nat.xor_lt_two_pow (toUint64_lt _) (toUint64_lt _))]; decide)
    (by rw [hamming_distance, specPopcount64_eq _
        (Nat.xor_lt_two_pow (toUint64_lt _) (toUint64_lt _))]; decide)

/-! ## migrate_to_dup_topics.py: sentinel tag link for empty tag results (C9) -/

/-- Python `a or b` on an optional string: `None` and `""` both fall through
to `b`. -/
def pyOr (a : Option (List Char)) (b : List Char) : List Char :=
  match a with
  | none => b
  | some s => if s = [] then b else s

/-- A row of the `bookmarks` table (fields touched by the migration;
strings as character lists, `NULL` as `none`). -/
structure MigBookmark where
  id : Nat
  user_id : Nat
  url : Option (List Char)
  title : Option (List Char)
  summary : Option (List Char)
  excerpt : Option (List Char)
  summary_text : Option (List Char)
  lang : Option (List Char)
  tags : Option (List (List Char))
  simhash64 : Option Int
  domain : Option (List Char)
  fetched_at : Option Int
  created_at : Option Int
  updated_at : Option Int
deriving Repr, DecidableEq

/-- A row of the `tags` table. -/
structure MigTag where
  user_id : Nat
  normalized_label : List Char
  id : Nat
deriving Repr, DecidableEq

/-- A row of the `bookmark_tags` table. -/
structure MigLink where
  bookmark_id : Nat
  tag_id : Nat
  weight : Rat
deriving Repr, DecidableEq

/-- The tag-side database state: `tags`, `bookmark_tags`, and the id
sequence backing `tags.id`. -/
structure MigDB where
  tags : List MigTag
  links : List MigLink
  next_tag_id : Nat
deriving Repr, DecidableEq

/-- The dict produced for one row by the chunk query of `run_migration`
(`has_bookmark_tags` is the `EXISTS` subquery evaluated at fetch time). -/
structure ChunkRow where
  id : Nat
  user_id : Nat
  url : Option (List Char)
  title : Option (List Char)
  summary : Option (List Char)
  excerpt : Option (List Char)
  summary_text : Option (List Char)
  lang : Option (List Char)
  tags : Option (List (List Char))
  simhash64 : Option Int
  created_at : Option Int
  updated_at : Option Int
  has_bookmark_tags : Bool
deriving Repr, DecidableEq

/-- Build the chunk dict from a `bookmarks` row and the current
`bookmark_tags` table. -/
def toChunkRow (links : List MigLink) (b : MigBookmark) : ChunkRow :=
  { id := b.id, user_id := b.user_id, url := b.url, title := b.title,
    summary := b.summary, excerpt := b.excerpt,
    summary_text := b.summary_text, lang := b.lang, tags := b.tags,
    simhash64 := b.simhash64, created_at := b.created_at,
    updated_at := b.updated_at,
    has_bookmark_tags := links.any (fun l => l.bookmark_id == b.id) }

/-- The `WHERE` predicate of the per-owner "unbackfilled" chunk scan:
`simhash64 IS NULL OR NOT EXISTS (bookmark_tags link)`. -/
def unbackfilled (links : List MigLink) (b : MigBookmark) : Bool :=
  b.simhash64.isNone || ! links.any (fun l => l.bookmark_id == b.id)

/-- All rows of one owner that the chunk scan can still return (any chunk
actually fetched is an ordered prefix of this candidate set). -/
def unbackfilled_candidates (tbl : List MigBookmark) (links : List MigLink)
    (u : Nat) : List MigBookmark :=
  tbl.filter (fun b => b.user_id == u && unbackfilled links b)

/-- `_simhash_to_bigint`: a 64-bit unsigned simhash stored into a signed
BIGINT column. -/
def mig_simhash_to_bigint : Option Nat → Option Int
  | none => none
  | some h => some (if h < 2 ^ 63 then (h : Int) else (h : Int) - 2 ^ 64)

/-- `_get_domain`: `None` on an empty url, otherwise the parsed netloc
(parsing deferred to an oracle). -/
def mig_get_domain (getDomain : List Char → Option (List Char))
    (url : List Char) : Option (List Char) :=
  if url = [] then none else getDomain url

/-- `_summary_text`: stripped summary, else stripped excerpt, truncated to
`SUMMARY_TEXT_MAX = 2048`. -/
def mig_summary_text (isSpace : Char → Bool)
    (summary excerpt : Option (List Char)) : List Char :=
  let raw := if stripWs isSpace (summary.getD []) = []
    then stripWs isSpace (excerpt.getD [])
    else stripWs isSpace (summary.getD [])
  raw.take 2048

/-- One iteration of `backfill_bookmark_columns`: skip rows that already
carry a simhash, otherwise derive the column values, update the row dict,
and (when not a dry run) update the `bookmarks` table. -/
def backfill_columns_row (isSpace : Char → Bool) (h64 : List Char → Nat)
    (lower : Char → Char) (getDomain : List Char → Option (List Char))
    (detectLang : List Char → List Char) (dry : Bool)
    (st : List MigBookmark × List ChunkRow × Nat) (row : ChunkRow) :
    List MigBookmark × List ChunkRow × Nat :=
  if row.simhash64.isSome then (st.1, st.2.1 ++ [row], st.2.2)
  else
    let url := pyOr row.url []
    let title := stripWs isSpace (pyOr row.title [])
    let summary_text := mig_summary_text isSpace row.summary row.excerpt
    let domain := mig_get_domain getDomain url
    let fetched_at := match row.updated_at with
      | some v => some v
      | none => row.created_at
    let tfs0 := stripWs isSpace (title ++ [' '] ++ summary_text)
    let text_for_simhash := if tfs0 = [] then url else tfs0
    let simhash64 := if text_for_simhash = [] then none
      else some (compute_simhash isSpace h64 lower text_for_simhash)
    let lang := if title = [] ∧ summary_text = [] then "en".toList
      else detectLang (title ++ [' '] ++ summary_text)
    let row' := { row with
      summary_text := if summary_text = [] then none
        else some (summary_text.take 2048),
      lang := some lang }
    if dry then (st.1, st.2.1 ++ [row'], st.2.2 + 1)
    else
      let tbl := st.1.map (fun b =>
        if b.id = row.id ∧ (b.simhash64 = none ∨ b.domain = none) then
          { b with
            domain := domain,
            fetched_at := fetched_at,
            summary_text := if summary_text = [] then none
              else some (summary_text.take 2048),
            simhash64 := mig_simhash_to_bigint simhash64,
            lang := some lang }
        else b)
      (tbl, st.2.1 ++ [row'], st.2.2 + 1)

/-- `backfill_bookmark_columns`: returns the updated table, the mutated row
dicts (in order) and the `updated` counter. -/
def backfill_bookmark_columns (isSpace : Char → Bool) (h64 : List Char → Nat)
    (lower : Char → Char) (getDomain : List Char → Option (List Char))
    (detectLang : List Char → List Char) (dry : Bool)
    (tbl : List MigBookmark) (rows : List ChunkRow) :
    List MigBookmark × List ChunkRow × Nat :=
  rows.foldl (backfill_columns_row isSpace h64 lower getDomain detectLang dry)
    (tbl, [], 0)

/-- `INSERT INTO tags ... ON CONFLICT (user_id, normalized_label) DO
NOTHING`. -/
def upsertTag (db : MigDB) (u : Nat) (label : List Char) : MigDB :=
  if db.tags.any (fun t => decide (t.user_id = u ∧ t.normalized_label = label))
  then db
  else { db with
         tags := db.tags ++ [⟨u, label, db.next_tag_id⟩],
         next_tag_id := db.next_tag_id + 1 }

/-- `SELECT id FROM tags WHERE user_id = $1 AND normalized_label = $2`. -/
def findTag (db : MigDB) (u : Nat) (label : List Char) : Option MigTag :=
  db.tags.find? (fun t => decide (t.user_id = u ∧ t.normalized_label = label))

/-- `INSERT INTO bookmark_tags ... ON CONFLICT (bookmark_id, tag_id) DO
NOTHING`. -/
def insertLinkDoNothing (db : MigDB) (bid tid : Nat) (w : Rat) : MigDB :=
  if db.links.any (fun l => decide (l.bookmark_id = bid ∧ l.tag_id = tid))
  then db
  else { db with links := db.links ++ [⟨bid, tid, w⟩] }

/-- `INSERT INTO bookmark_tags ... ON CONFLICT (bookmark_id, tag_id) DO
UPDATE SET weight = EXCLUDED.weight`. -/
def insertLinkUpsertWeight (db : MigDB) (bid tid : Nat) (w : Rat) : MigDB :=
  if db.links.any (fun l => decide (l.bookmark_id = bid ∧ l.tag_id = tid))
  then { db with links := db.links.map (fun l =>
      if l.bookmark_id = bid ∧ l.tag_id = tid then { l with weight := w }
      else l) }
  else { db with links := db.links ++ [⟨bid, tid, w⟩] }

/-- The sentinel label `__no_auto_tags__`. -/
def sentinel_label : List Char := "__no_auto_tags__".toList

/-- `_ensure_sentinel_tag_and_link`. -/
def ensure_sentinel_tag_and_link (db : MigDB) (u bid : Nat) : MigDB :=
  let db1 := upsertTag db u sentinel_label
  match findTag db1 u sentinel_label with
  | none => db1
  | some t => insertLinkDoNothing db1 bid t.id 0

/-- `generate_tags` reduced to its guard: the title-weighted combined text
must reach 10 characters, otherwise no tags; the keyword extraction behind
the guard is an oracle. -/
def mig_generate_tags (isSpace : Char → Bool)
    (genCore : List Char → List Char → List (List Char))
    (title text : List Char) : List (List Char) :=
  let combined := stripWs isSpace
    (title ++ [' '] ++ title ++ [' '] ++ title ++ [' '] ++ text)
  if combined.length < 10 then [] else genCore title text

/-- The tag list `backfill_tags_for_chunk` derives for one row: normalized
existing tags when any survive, otherwise `generate_tags` (the external
normalizer and keyword extractor are oracle parameters). -/
def derived_tag_labels (isSpace : Char → Bool)
    (normalizeTag : List Char → List Char → Option (List Char))
    (genTags : List Char → List Char → List (List Char))
    (row : ChunkRow) : List (List Char) :=
  let title := stripWs isSpace (pyOr row.title [])
  let summary_text := stripWs isSpace
    (pyOr row.summary_text (pyOr row.summary (pyOr row.excerpt [])))
  let existing_tags := row.tags.getD []
  if existing_tags ≠ [] then
    let lang := pyOr row.lang ("en".toList)
    let ls := existing_tags.foldl (fun acc t =>
      if stripWs isSpace t = [] then acc
      else match normalizeTag (stripWs isSpace t) lang with
        | some n => acc ++ [n]
        | none => acc) []
    if ls = [] then mig_generate_tags isSpace genTags title
      (summary_text.take 5000)
    else ls
  else mig_generate_tags isSpace genTags title (summary_text.take 5000)

/-- One iteration of `backfill_tags_for_chunk` over `(db, count)`. -/
def backfill_tags_row (isSpace : Char → Bool)
    (normalizeTag : List Char → List Char → Option (List Char))
    (genTags : List Char → List Char → List (List Char)) (dry : Bool)
    (st : MigDB × Nat) (row : ChunkRow) : MigDB × Nat :=
  if row.has_bookmark_tags then st
  else
    let tag_labels := derived_tag_labels isSpace normalizeTag genTags row
    if dry then (st.1, st.2 + tag_labels.length)
    else if tag_labels ≠ [] then
      tag_labels.enum.foldl (fun s rl =>
        if rl.2 = [] then s
        else
          let d1 := upsertTag s.1 row.user_id rl.2
          match findTag d1 row.user_id rl.2 with
          | none => (d1, s.2)
          | some t =>
            let w : Rat := if rl.1 < 20 then 1 / ((rl.1 : Rat) + 1)
              else 1 / 20
            (insertLinkUpsertWeight d1 row.id t.id w, s.2 + 1)) st
    else (ensure_sentinel_tag_and_link st.1 row.user_id row.id, st.2)

/-- `backfill_tags_for_chunk`: fold the per-row step, `count` starting at
zero. -/
def backfill_tags_for_chunk (isSpace : Char → Bool)
    (normalizeTag : List Char → List Char → Option (List Char))
    (genTags : List Char → List Char → List (List Char)) (dry : Bool)
    (db : MigDB) (rows : List ChunkRow) : MigDB × Nat :=
  rows.foldl (backfill_tags_row isSpace normalizeTag genTags dry) (db, 0)

theorem upsertTag_links (db : MigDB) (u : Nat) (label : List Char) :
    (upsertTag db u label).links = db.links := by
  unfold upsertTag
  split
  · rfl
  · rfl

theorem upsertTag_tags_extend (db : MigDB) (u : Nat) (label : List Char) :
    ∃ suf, (upsertTag db u label).tags = db.tags ++ suf := by
  unfold upsertTag
  split
  · exact ⟨[], (List.append_nil _).symm⟩
  · exact ⟨[⟨u, label, db.next_tag_id⟩], rfl⟩

theorem findTag_spec {db : MigDB} {u : Nat} {label : List Char} {t : MigTag}
    (h : findTag db u label = some t) :
    t.user_id = u ∧ t.normalized_label = label ∧ t ∈ db.tags := by
  unfold findTag at h
  have hm := List.mem_of_find?_eq_some h
  have hp := List.find?_some h
  rw [decide_eq_true_eq] at hp
  exact ⟨hp.1, hp.2, hm⟩

theorem findTag_upsertTag (db : MigDB) (u : Nat) (label : List Char) :
    ∃ t, findTag (upsertTag db u label) u label = some t := by
  cases hf : findTag (upsertTag db u label) u label with
  | some t => exact ⟨t, rfl⟩
  | none =>
    exfalso
    unfold findTag at hf
    have hall := List.find?_eq_none.1 hf
    unfold upsertTag at hall
    by_cases h : db.tags.any
        (fun t => decide (t.user_id = u ∧ t.normalized_label = label)) = true
    · rw [if_pos h] at hall
      obtain ⟨t, ht, hp⟩ := List.any_eq_true.1 h
      exact hall t ht hp
    · rw [if_neg h] at hall
      have hmem : (⟨u, label, db.next_tag_id⟩ : MigTag)
          ∈ db.tags ++ [⟨u, label, db.next_tag_id⟩] := by simp
      have := hall _ hmem
      simp at this

theorem findTag_upsertTag_spec (db : MigDB) (u : Nat) (label : List Char) :
    ∃ t, findTag (upsertTag db u label) u label = some t ∧ t.user_id = u
      ∧ t.normalized_label = label ∧ t ∈ (upsertTag db u label).tags := by
  obtain ⟨t, ht⟩ := findTag_upsertTag db u label
  obtain ⟨h1, h2, h3⟩ := findTag_spec ht
  exact ⟨t, ht, h1, h2, h3⟩

theorem insertLinkDoNothing_tags (db : MigDB) (bid tid : Nat) (w : Rat) :
    (insertLinkDoNothing db bid tid w).tags = db.tags := by
  unfold insertLinkDoNothing
  split
  · rfl
  · rfl

theorem insertLinkUpsertWeight_tags (db : MigDB) (bid tid : Nat) (w : Rat) :
    (insertLinkUpsertWeight db bid tid w).tags = db.tags := by
  unfold insertLinkUpsertWeight
  split
  · rfl
  · rfl

theorem insertLinkDoNothing_links_of_new (db : MigDB) (bid tid : Nat)
    (w : Rat)
    (h : ∀ l ∈ db.links, ¬(l.bookmark_id = bid ∧ l.tag_id = tid)) :
    (insertLinkDoNothing db bid tid w).links = db.links ++ [⟨bid, tid, w⟩] := by
  have hc : ¬(db.links.any
      (fun l => decide (l.bookmark_id = bid ∧ l.tag_id = tid)) = true) := by
    rw [List.any_eq_true]
    rintro ⟨x, hx, hp⟩
    rw [decide_eq_true_eq] at hp
    exact h x hx hp
  unfold insertLinkDoNothing
  rw [if_neg hc]

theorem insertLinkDoNothing_of_mem (db : MigDB) (bid tid : Nat) (w : Rat)
    (h : ∃ x ∈ db.links, x.bookmark_id = bid ∧ x.tag_id = tid) :
    insertLinkDoNothing db bid tid w = db := by
  have hc : db.links.any
      (fun l => decide (l.bookmark_id = bid ∧ l.tag_id = tid)) = true := by
    rw [List.any_eq_true]
    obtain ⟨x, hx, hp⟩ := h
    exact ⟨x, hx, by rw [decide_eq_true_eq]; exact hp⟩
  unfold insertLinkDoNothing
  rw [if_pos hc]

theorem filter_map_eq {α : Type} (g : α → α) (q : α → Bool)
    (hq : ∀ x, q (g x) = q x) (hg : ∀ x, q x = true → g x = x) :
    ∀ l : List α, (l.map g).filter q = l.filter q := by
  intro l
  induction l with
  | nil => rfl
  | cons x xs ih =>
    rw [List.map_cons, List.filter_cons, List.filter_cons, hq x]
    cases hx : q x with
    | true => rw [if_pos rfl, if_pos rfl, hg x hx, ih]
    | false =>
      rw [if_neg (by simp), if_neg (by simp)]
      exact ih

theorem insertLinkUpsertWeight_links_filter (db : MigDB) (rid tid : Nat)
    (w : Rat) (bid : Nat) (hbid : bid ≠ rid) :
    (insertLinkUpsertWeight db rid tid w).links.filter
        (fun l => l.bookmark_id == bid)
      = db.links.filter (fun l => l.bookmark_id == bid) := by
  unfold insertLinkUpsertWeight
  split
  · refine filter_map_eq _ _ ?_ ?_ db.links
    · intro x
      by_cases hx : x.bookmark_id = rid ∧ x.tag_id = tid
      · rw [if_pos hx]
      · rw [if_neg hx]
    · intro x hx
      rw [beq_iff_eq] at hx
      rw [if_neg]
      intro hcon
      exact hbid (hx ▸ hcon.1 ▸ rfl)
  · show (db.links ++ [(⟨rid, tid, w⟩ : MigLink)]).filter
        (fun l => l.bookmark_id == bid)
      = db.links.filter (fun l => l.bookmark_id == bid)
    rw [List.filter_append]
    have : List.filter (fun l => l.bookmark_id == bid)
        [(⟨rid, tid, w⟩ : MigLink)] = [] := by
      simp [Ne.symm hbid]
    rw [this, List.append_nil]

theorem ensure_sentinel_links_filter (db : MigDB) (u rid bid : Nat)
    (hbid : bid ≠ rid) :
    (ensure_sentinel_tag_and_link db u rid).links.filter
        (fun l => l.bookmark_id == bid)
      = db.links.filter (fun l => l.bookmark_id == bid) := by
  unfold ensure_sentinel_tag_and_link
  cases hf : findTag (upsertTag db u sentinel_label) u sentinel_label with
  | none =>
    simp only [hf, upsertTag_links]
  | some t =>
    simp only [hf]
    unfold insertLinkDoNothing
    split
    · rw [upsertTag_links]
    · show ((upsertTag db u sentinel_label).links
            ++ [(⟨rid, t.id, 0⟩ : MigLink)]).filter
          (fun l => l.bookmark_id == bid)
        = db.links.filter (fun l => l.bookmark_id == bid)
      rw [List.filter_append, upsertTag_links]
      have : List.filter (fun l => l.bookmark_id == bid)
          [(⟨rid, t.id, 0⟩ : MigLink)] = [] := by
        simp [Ne.symm hbid]
      rw [this, List.append_nil]

theorem ensure_sentinel_tags_extend (db : MigDB) (u rid : Nat) :
    ∃ suf, (ensure_sentinel_tag_and_link db u rid).tags = db.tags ++ suf := by
  obtain ⟨suf, hs⟩ := upsertTag_tags_extend db u sentinel_label
  unfold ensure_sentinel_tag_and_link
  cases hf : findTag (upsertTag db u sentinel_label) u sentinel_label with
  | none => exact ⟨suf, by simp only [hf]; exact hs⟩
  | some t =>
    refine ⟨suf, ?_⟩
    simp only [hf, insertLinkDoNothing_tags]
    exact hs

theorem tagloop_links_filter (u rid bid : Nat) (hbid : bid ≠ rid) :
    ∀ (labels : List (Nat × List Char)) (st : MigDB × Nat),
      ((labels.foldl (fun s rl =>
        if rl.2 = [] then s
        else
          let d1 := upsertTag s.1 u rl.2
          match findTag d1 u rl.2 with
          | none => (d1, s.2)
          | some t =>
            let w : Rat := if rl.1 < 20 then 1 / ((rl.1 : Rat) + 1)
              else 1 / 20
            (insertLinkUpsertWeight d1 rid t.id w, s.2 + 1)) st).1.links.filter
          (fun l => l.bookmark_id == bid))
        = st.1.links.filter (fun l => l.bookmark_id == bid) := by
  intro labels
  induction labels with
  | nil => intro st; rfl
  | cons rl rest ih =>
    intro st
    rw [List.foldl_cons, ih]
    by_cases h2 : rl.2 = []
    · rw [if_pos h2]
    · rw [if_neg h2]
      cases hf : findTag (upsertTag st.1 u rl.2) u rl.2 with
      | none => simp only [hf, upsertTag_links]
      | some t =>
        simp only [hf]
        rw [insertLinkUpsertWeight_links_filter _ _ _ _ _ hbid,
          upsertTag_links]

theorem tagloop_tags_extend (u rid : Nat) :
    ∀ (labels : List (Nat × List Char)) (st : MigDB × Nat),
      ∃ suf, ((labels.foldl (fun s rl =>
        if rl.2 = [] then s
        else
          let d1 := upsertTag s.1 u rl.2
          match findTag d1 u rl.2 with
          | none => (d1, s.2)
          | some t =>
            let w : Rat := if rl.1 < 20 then 1 / ((rl.1 : Rat) + 1)
              else 1 / 20
            (insertLinkUpsertWeight d1 rid t.id w, s.2 + 1)) st).1.tags)
        = st.1.tags ++ suf := by
  intro labels
  induction labels with
  | nil => intro st; exact ⟨[], (List.append_nil _).symm⟩
  | cons rl rest ih =>
    intro st
    rw [List.foldl_cons]
    by_cases h2 : rl.2 = []
    · rw [if_pos h2]
      exact ih st
    · rw [if_neg h2]
      cases hf : findTag (upsertTag st.1 u rl.2) u rl.2 with
      | none =>
        simp only [hf]
        obtain ⟨s1, hs1⟩ := upsertTag_tags_extend st.1 u rl.2
        obtain ⟨s2, hs2⟩ := ih (upsertTag st.1 u rl.2, st.2)
        exact ⟨s1 ++ s2, by rw [hs2, hs1, List.append_assoc]⟩
      | some t =>
        simp only [hf]
        obtain ⟨s1, hs1⟩ := upsertTag_tags_extend st.1 u rl.2
        obtain ⟨s2, hs2⟩ := ih (insertLinkUpsertWeight
          (upsertTag st.1 u rl.2) rid t.id
          (if rl.1 < 20 then 1 / ((rl.1 : Rat) + 1) else 1 / 20), st.2 + 1)
        refine ⟨s1 ++ s2, ?_⟩
        rw [hs2]
        simp only [insertLinkUpsertWeight_tags]
        rw [hs1, List.append_assoc]

theorem backfill_tags_row_skip (isSpace : Char → Bool)
    (normalizeTag : List Char → List Char → Option (List Char))
    (genTags : List Char → List Char → List (List Char)) (dry : Bool)
    (st : MigDB × Nat) (row : ChunkRow)
    (hb : row.has_bookmark_tags = true) :
    backfill_tags_row isSpace normalizeTag genTags dry st row = st := by
  unfold backfill_tags_row
  rw [if_pos hb]

theorem backfill_tags_row_of_empty (isSpace : Char → Bool)
    (normalizeTag : List Char → List Char → Option (List Char))
    (genTags : List Char → List Char → List (List Char))
    (st : MigDB × Nat) (row : ChunkRow)
    (hhb : row.has_bookmark_tags = false)
    (hder : derived_tag_labels isSpace normalizeTag genTags row = []) :
    backfill_tags_row isSpace normalizeTag genTags false st row
      = (ensure_sentinel_tag_and_link st.1 row.user_id row.id, st.2) := by
  simp only [backfill_tags_row, hhb, hder]
  simp

theorem backfill_tags_row_links_filter (isSpace : Char → Bool)
    (normalizeTag : List Char → List Char → Option (List Char))
    (genTags : List Char → List Char → List (List Char))
    (row : ChunkRow) (bid : Nat) (hbid : bid ≠ row.id) (st : MigDB × Nat) :
    (backfill_tags_row isSpace normalizeTag genTags false st
        row).1.links.filter (fun l => l.bookmark_id == bid)
      = st.1.links.filter (fun l => l.bookmark_id == bid) := by
  by_cases hb : row.has_bookmark_tags = true
  · rw [backfill_tags_row_skip _ _ _ _ _ _ hb]
  · simp only [backfill_tags_row, if_neg hb]
    by_cases hlab : derived_tag_labels isSpace normalizeTag genTags row = []
    · simp only [hlab]
      simp only [ne_eq, not_true_eq_false, Bool.false_eq_true, if_false,
        if_neg]
      exact ensure_sentinel_links_filter st.1 row.user_id row.id bid hbid
    · simp only [if_neg (by simp : ¬(false = true)), if_pos hlab]
      exact tagloop_links_filter row.user_id row.id bid hbid _ st

theorem backfill_tags_row_tags_extend (isSpace : Char → Bool)
    (normalizeTag : List Char → List Char → Option (List Char))
    (genTags : List Char → List Char → List (List Char))
    (row : ChunkRow) (st : MigDB × Nat) :
    ∃ suf, (backfill_tags_row isSpace normalizeTag genTags false st
        row).1.tags = st.1.tags ++ suf := by
  by_cases hb : row.has_bookmark_tags = true
  · rw [backfill_tags_row_skip _ _ _ _ _ _ hb]
    exact ⟨[], (List.append_nil _).symm⟩
  · simp only [backfill_tags_row, if_neg hb]
    by_cases hlab : derived_tag_labels isSpace normalizeTag genTags row = []
    · simp only [hlab]
      simp only [ne_eq, not_true_eq_false, Bool.false_eq_true, if_false,
        if_neg]
      exact ensure_sentinel_tags_extend st.1 row.user_id row.id
    · simp only [if_neg (by simp : ¬(false = true)), if_pos hlab]
      exact tagloop_tags_extend row.user_id row.id _ st

theorem chunk_links_filter (isSpace : Char → Bool)
    (normalizeTag : List Char → List Char → Option (List Char))
    (genTags : List Char → List Char → List (List Char)) (bid : Nat) :
    ∀ (rows : List ChunkRow) (st : MigDB × Nat), (∀ r ∈ rows, r.id ≠ bid) →
      ((rows.foldl (backfill_tags_row isSpace normalizeTag genTags false)
          st).1.links.filter (fun l => l.bookmark_id == bid))
        = st.1.links.filter (fun l => l.bookmark_id == bid) := by
  intro rows
  induction rows with
  | nil => intro st _; rfl
  | cons r rest ih =>
    intro st hr
    rw [List.foldl_cons]
    rw [ih _ (fun x hx => hr x (List.mem_cons_of_mem r hx))]
    exact backfill_tags_row_links_filter isSpace normalizeTag genTags r bid
      (Ne.symm (hr r (List.mem_cons_self r rest))) st

theorem chunk_tags_extend (isSpace : Char → Bool)
    (normalizeTag : List Char → List Char → Option (List Char))
    (genTags : List Char → List Char → List (List Char)) :
    ∀ (rows : List ChunkRow) (st : MigDB × Nat),
      ∃ suf, ((rows.foldl (backfill_tags_row isSpace normalizeTag genTags
          false) st).1.tags) = st.1.tags ++ suf := by
  intro rows
  induction rows with
  | nil => intro st; exact ⟨[], (List.append_nil _).symm⟩
  | cons r rest ih =>
    intro st
    rw [List.foldl_cons]
    obtain ⟨s1, hs1⟩ := backfill_tags_row_tags_extend isSpace normalizeTag
      genTags r st
    obtain ⟨s2, hs2⟩ := ih (backfill_tags_row isSpace normalizeTag genTags
      false st r)
    exact ⟨s1 ++ s2, by rw [hs2, hs1, List.append_assoc]⟩

theorem findTag_of_tags_extend {db db' : MigDB} {u : Nat} {label : List Char}
    {t : MigTag} (h : findTag db u label = some t)
    (hext : ∃ suf, db'.tags = db.tags ++ suf) :
    findTag db' u label = some t := by
  obtain ⟨suf, hs⟩ := hext
  unfold findTag at h ⊢
  rw [hs, List.find?_append, h]
  rfl

theorem ensure_sentinel_spec (db : MigDB) (u rid : Nat)
    (hnolink : db.links.filter (fun l => l.bookmark_id == rid) = []) :
    ∃ t, findTag (upsertTag db u sentinel_label) u sentinel_label = some t
      ∧ t.user_id = u ∧ t.normalized_label = sentinel_label
      ∧ (ensure_sentinel_tag_and_link db u rid).tags
          = (upsertTag db u sentinel_label).tags
      ∧ t ∈ (ensure_sentinel_tag_and_link db u rid).tags
      ∧ (ensure_sentinel_tag_and_link db u rid).links
          = db.links ++ [⟨rid, t.id, 0⟩] := by
  obtain ⟨t, ht, hu, hl, hmem⟩ := findTag_upsertTag_spec db u sentinel_label
  have hnew : ∀ x ∈ (upsertTag db u sentinel_label).links,
      ¬(x.bookmark_id = rid ∧ x.tag_id = t.id) := by
    intro x hx hp
    rw [upsertTag_links] at hx
    have hxf : x ∈ db.links.filter (fun l => l.bookmark_id == rid) :=
      List.mem_filter.2 ⟨hx, by rw [beq_iff_eq]; exact hp.1⟩
    rw [hnolink] at hxf
    simp at hxf
  have htags : (ensure_sentinel_tag_and_link db u rid).tags
      = (upsertTag db u sentinel_label).tags := by
    simp only [ensure_sentinel_tag_and_link, ht, insertLinkDoNothing_tags]
  refine ⟨t, ht, hu, hl, htags, ?_, ?_⟩
  · rw [htags]
    exact hmem
  · simp only [ensure_sentinel_tag_and_link, ht]
    rw [insertLinkDoNothing_links_of_new _ _ _ _ hnew, upsertTag_links]

theorem ensure_sentinel_noop (db : MigDB) (u rid : Nat) (t : MigTag)
    (hfind : findTag db u sentinel_label = some t)
    (hlink : ∃ x ∈ db.links, x.bookmark_id = rid ∧ x.tag_id = t.id) :
    ensure_sentinel_tag_and_link db u rid = db := by
  have hup : upsertTag db u sentinel_label = db := by
    unfold upsertTag
    rw [if_pos ?hc]
    case hc =>
      rw [List.any_eq_true]
      obtain ⟨h1, h2, h3⟩ := findTag_spec hfind
      exact ⟨t, h3, by rw [decide_eq_true_eq]; exact ⟨h1, h2⟩⟩
  simp only [ensure_sentinel_tag_and_link, hup, hfind]
  exact insertLinkDoNothing_of_mem db rid t.id 0 hlink

theorem derived_tag_labels_has_flag (isSpace : Char → Bool)
    (normalizeTag : List Char → List Char → Option (List Char))
    (genTags : List Char → List Char → List (List Char))
    (row : ChunkRow) (hb : Bool) :
    derived_tag_labels isSpace normalizeTag genTags
        { row with has_bookmark_tags := hb }
      = derived_tag_labels isSpace normalizeTag genTags row := rfl

/-- C9 (amended): in a non-dry-run chunk, an item with no existing tag link
whose tag derivation yields an empty list receives exactly one sentinel tag
link (owner's `__no_auto_tags__` tag, weight 0); reprocessing the row
afterwards changes nothing, and the "unbackfilled" scan predicate on that
item degenerates to `simhash64 IS NULL`: the item stops being selected
only if its simhash64 column was filled in. -/
theorem backfill_tags_sentinel_behaviour (isSpace : Char → Bool)
    (normalizeTag : List Char → List Char → Option (List Char))
    (genTags : List Char → List Char → List (List Char))
    (db : MigDB) (pre post : List ChunkRow) (row : ChunkRow)
    (hhb : row.has_bookmark_tags = false)
    (hder : derived_tag_labels isSpace normalizeTag genTags row = [])
    (hpre : ∀ r ∈ pre, r.id ≠ row.id) (hpost : ∀ r ∈ post, r.id ≠ row.id)
    (hnolink : db.links.filter (fun l => l.bookmark_id == row.id) = []) :
    ∃ tid,
      ((backfill_tags_for_chunk isSpace normalizeTag genTags false db
          (pre ++ row :: post)).1.links.filter
            (fun l => l.bookmark_id == row.id))
        = [⟨row.id, tid, 0⟩]
      ∧ (∃ tg ∈ (backfill_tags_for_chunk isSpace normalizeTag genTags false
            db (pre ++ row :: post)).1.tags,
          tg.id = tid ∧ tg.user_id = row.user_id
            ∧ tg.normalized_label = sentinel_label)
      ∧ (∀ (hb : Bool) (k : Nat),
          backfill_tags_row isSpace normalizeTag genTags false
            ((backfill_tags_for_chunk isSpace normalizeTag genTags false db
              (pre ++ row :: post)).1, k)
            { row with has_bookmark_tags := hb }
          = ((backfill_tags_for_chunk isSpace normalizeTag genTags false db
              (pre ++ row :: post)).1, k))
      ∧ (∀ b : MigBookmark, b.id = row.id →
          unbackfilled (backfill_tags_for_chunk isSpace normalizeTag genTags
            false db (pre ++ row :: post)).1.links b
            = b.simhash64.isNone) := by
  have hst1f : (pre.foldl (backfill_tags_row isSpace normalizeTag genTags
      false) (db, 0)).1.links.filter (fun l => l.bookmark_id == row.id)
      = [] := by
    rw [chunk_links_filter isSpace normalizeTag genTags row.id pre (db, 0)
      hpre]
    exact hnolink
  obtain ⟨t, htfind, htu, htl, htags, htmem, htlinks⟩ :=
    ensure_sentinel_spec (pre.foldl (backfill_tags_row isSpace normalizeTag
      genTags false) (db, 0)).1 row.user_id row.id hst1f
  have hrow : backfill_tags_row isSpace normalizeTag genTags false
      (pre.foldl (backfill_tags_row isSpace normalizeTag genTags false)
        (db, 0)) row
      = (ensure_sentinel_tag_and_link (pre.foldl (backfill_tags_row isSpace
          normalizeTag genTags false) (db, 0)).1 row.user_id row.id,
        (pre.foldl (backfill_tags_row isSpace normalizeTag genTags false)
          (db, 0)).2) :=
    backfill_tags_row_of_empty _ _ _ _ row hhb hder
  have hfinal : backfill_tags_for_chunk isSpace normalizeTag genTags false db
      (pre ++ row :: post)
      = post.foldl (backfill_tags_row isSpace normalizeTag genTags false)
          (ensure_sentinel_tag_and_link (pre.foldl (backfill_tags_row isSpace
            normalizeTag genTags false) (db, 0)).1 row.user_id row.id,
          (pre.foldl (backfill_tags_row isSpace normalizeTag genTags false)
            (db, 0)).2) := by
    unfold backfill_tags_for_chunk
    rw [List.foldl_append, List.foldl_cons, hrow]
  have hst2f : (ensure_sentinel_tag_and_link (pre.foldl (backfill_tags_row
      isSpace normalizeTag genTags false) (db, 0)).1 row.user_id
      row.id).links.filter (fun l => l.bookmark_id == row.id)
      = [⟨row.id, t.id, 0⟩] := by
    rw [htlinks, List.filter_append, hst1f]
    simp
  have hfinf : (backfill_tags_for_chunk isSpace normalizeTag genTags false db
      (pre ++ row :: post)).1.links.filter (fun l => l.bookmark_id == row.id)
      = [⟨row.id, t.id, 0⟩] := by
    rw [hfinal, chunk_links_filter isSpace normalizeTag genTags row.id post _
      hpost]
    exact hst2f
  obtain ⟨suf, hsuf⟩ := chunk_tags_extend isSpace normalizeTag genTags post
    (ensure_sentinel_tag_and_link (pre.foldl (backfill_tags_row isSpace
      normalizeTag genTags false) (db, 0)).1 row.user_id row.id,
    (pre.foldl (backfill_tags_row isSpace normalizeTag genTags false)
      (db, 0)).2)
  have hfintags : (backfill_tags_for_chunk isSpace normalizeTag genTags false
      db (pre ++ row :: post)).1.tags
      = (ensure_sentinel_tag_and_link (pre.foldl (backfill_tags_row isSpace
          normalizeTag genTags false) (db, 0)).1 row.user_id
          row.id).tags ++ suf := by
    rw [hfinal]
    exact hsuf
  have hfind_final : findTag (backfill_tags_for_chunk isSpace normalizeTag
      genTags false db (pre ++ row :: post)).1 row.user_id sentinel_label
      = some t := by
    refine findTag_of_tags_extend htfind ⟨suf, ?_⟩
    rw [hfintags, htags]
  have hlink_final : (⟨row.id, t.id, 0⟩ : MigLink)
      ∈ (backfill_tags_for_chunk isSpace normalizeTag genTags false db
        (pre ++ row :: post)).1.links := by
    have hx : (⟨row.id, t.id, 0⟩ : MigLink)
        ∈ (backfill_tags_for_chunk isSpace normalizeTag genTags false db
          (pre ++ row :: post)).1.links.filter
            (fun l => l.bookmark_id == row.id) := by
      rw [hfinf]
      exact List.mem_singleton.2 rfl
    exact List.mem_of_mem_filter hx
  refine ⟨t.id, hfinf, ?_, ?_, ?_⟩
  · refine ⟨t, ?_, rfl, htu, htl⟩
    rw [hfintags]
    exact List.mem_append_left _ htmem
  · intro hb k
    cases hb with
    | true =>
      exact backfill_tags_row_skip _ _ _ _ _ _ rfl
    | false =>
      rw [backfill_tags_row_of_empty _ _ _ _ _ rfl
        ((derived_tag_labels_has_flag isSpace normalizeTag genTags row
          false).trans hder)]
      rw [ensure_sentinel_noop _ _ _ t hfind_final
        ⟨⟨row.id, t.id, 0⟩, hlink_final, rfl, rfl⟩]
  · intro b hb
    have hany : ((backfill_tags_for_chunk isSpace normalizeTag genTags false
        db (pre ++ row :: post)).1.links.any
          (fun l => l.bookmark_id == b.id)) = true := by
      rw [List.any_eq_true]
      refine ⟨⟨row.id, t.id, 0⟩, hlink_final, ?_⟩
      rw [hb]
      simp
    unfold unbackfilled
    rw [hany]
    simp

/-- Witness for `backfill_tags_sentinel_behaviour`: one all-empty row in an
empty database gets its single sentinel link. -/
theorem backfill_tags_sentinel_behaviour_witness :
    ∃ tid, ((backfill_tags_for_chunk (fun c => c == ' ')
        (fun t _ => some t) (fun _ _ => [['a']]) false ⟨[], [], 0⟩
        ([] ++ (⟨1, 7, none, none, none, none, none, none, none, none, none,
          none, false⟩ : ChunkRow) :: [])).1.links.filter
          (fun l => l.bookmark_id == 1))
      = [⟨1, tid, 0⟩] :=
  match backfill_tags_sentinel_behaviour (fun c => c == ' ')
      (fun t _ => some t) (fun _ _ => [['a']]) ⟨[], [], 0⟩ [] []
      ⟨1, 7, none, none, none, none, none, none, none, none, none, none,
        false⟩ rfl (by decide) (by simp) (by simp) rfl with
  | ⟨tid, h1, _, _, _⟩ => ⟨tid, h1⟩

/-- An all-empty bookmark: no url, title, summary, excerpt or simhash. -/
def migExampleBookmark : MigBookmark :=
  ⟨1, 7, none, none, none, none, none, none, none, none, none, none, none,
    none⟩

/-- The column-backfill pass of the migration over the single all-empty
bookmark. -/
def migExampleColumns : List MigBookmark × List ChunkRow × Nat :=
  backfill_bookmark_columns (fun c => c == ' ') (fun l => l.length)
    (fun c => c) (fun _ => none) (fun _ => ['e', 'n']) false
    [migExampleBookmark] [toChunkRow [] migExampleBookmark]

/-- The tag-backfill pass of the migration over the mutated row dicts. -/
def migExampleDB : MigDB :=
  (backfill_tags_for_chunk (fun c => c == ' ') (fun t _ => some t)
    (fun _ _ => [['a']]) false ⟨[], [], 0⟩ migExampleColumns.2.1).1

/-- Counterexample to C9 as stated: the all-empty bookmark does get exactly
one sentinel tag link, but `backfill_bookmark_columns` leaves its
`simhash64` NULL (empty text and empty url yield no simhash), so the
per-owner "unbackfilled" scan still selects the item after the chunk
completes. -/
theorem sentinel_item_still_selected :
    migExampleDB.links.countP (fun l => l.bookmark_id == 1) = 1
    ∧ (unbackfilled_candidates migExampleColumns.1 migExampleDB.links 7).map
        (fun b => b.id) = [1] := by
  decide

end GoodPocket
